import Mathlib

/-!
# console-calculator: tokenizer, shunting-yard conversion and postfix evaluation

A shallow embedding of `src/calculator.cpp`.

Representation choices.
* A `std::string` is a `List Char`; each element stands for one C++ `char`.
* A `std::deque<Token>` (token sequence, output queue) is a `List Token` in
  front-to-back order, so `push_back t` is `q ++ [t]`.
* A `std::vector` used as a stack (`stack` in `ShuntingYard`, the value stack
  in `calculator`) is a list whose HEAD is `stack.back()`, so `push_back` is
  `x :: st` and `pop_back` drops the head.
* `exit(0)` after an error message, an exception thrown by `std::stof`, and
  an operation the C++ standard leaves undefined (`back()` / `pop_back()` on
  an empty container) end the run; they are the constructors of `Failure`.
* `double` arithmetic is a parameter (`Arith`) of the evaluation loop.
-/

namespace Calculator

/-! ## Data model -/

/-- The enumeration `Token::Type`. -/
inductive TokenType
  | Unknown
  | Number
  | Operator
  | LeftParen
  | RightParen
  | Dot
  deriving DecidableEq, Repr

/-- The class `Token`: type, text, precedence and associativity. -/
structure Token where
  type : TokenType
  str : List Char
  precedence : Int
  rightAssociative : Bool
  deriving DecidableEq, Repr

/-- The constructor `Token(t, s)` with the default arguments `prec = -1`, `ra = false`. -/
def Token.mk2 (t : TokenType) (s : List Char) : Token :=
  { type := t, str := s, precedence := -1, rightAssociative := false }

/-- The ways a run ends without a value. -/
inductive Failure
  /-- ShuntingYard: `"RightParen error " << token.str`, then `exit(0)`. -/
  | rightParenError (s : List Char)
  /-- ShuntingYard, `default:` case: `"error " << token.str`, then `exit(0)`. -/
  | tokenError (s : List Char)
  /-- ShuntingYard, final loop: `"Mismatched parentheses error"`, then `exit(0)`. -/
  | mismatchedParentheses
  /-- The evaluation loop: `"Operator error [" << token.str << "]"`, then `exit(0)`. -/
  | operatorError (s : List Char)
  /-- The evaluation loop, `default:` case: `"Token error"`, then `exit(0)`. -/
  | evalTokenError
  /-- The call `std::stof(token.str)` throws. -/
  | stofException (s : List Char)
  /-- The run executes `back()` or `pop_back()` on an empty container: the
  behaviour of the program is undefined from there on. -/
  | undefinedBehaviour
  deriving DecidableEq, Repr

/-- The two outcomes that report unbalanced parentheses. -/
def Failure.isParenMismatch : Failure → Bool
  | .rightParenError _ => true
  | .mismatchedParentheses => true
  | _ => false

/-! ## Normalizer: `RemoveSpaces`, `ReplaceCommas`, `FormatString` -/

/-- The function `RemoveSpaces`: `s.erase(std::remove(s.begin(), s.end(), ' '), s.end())`. -/
def RemoveSpaces (s : List Char) : List Char :=
  s.filter (fun c => c != ' ')

/-- The function `ReplaceCommas`: `std::replace(s.begin(), s.end(), ',', '.')`. -/
def ReplaceCommas (s : List Char) : List Char :=
  s.map (fun c => if c = ',' then '.' else c)

/-- The function `FormatString`: `RemoveSpaces(s); ReplaceCommas(s);`. -/
def FormatString (s : List Char) : List Char :=
  ReplaceCommas (RemoveSpaces s)

/-! ## Tokenizer: `ExprToTokens` -/

/-- The C function `isdigit` in the "C" locale: true for `'0'` .. `'9'`, false
for every other character (also for the bytes above 127). -/
def isdigit (c : Char) : Bool :=
  decide (48 ≤ c.toNat) && decide (c.toNat ≤ 57)

/-- The inner loop `for (; isdigit(*p); ++p) {}`: the digits read and the
rest of the string, starting at the first non-digit. -/
def takeDigits : List Char → List Char × List Char
  | [] => ([], [])
  | c :: cs =>
    if isdigit c then
      ((takeDigits cs).1 |>.cons c, (takeDigits cs).2)
    else ([], c :: cs)

/-- The `else` branch of the loop body of `ExprToTokens`: the token of one
non-digit character. -/
def charToken (c : Char) : Token :=
  if c = '.' then { type := .Dot, str := [c], precedence := -1, rightAssociative := false }
  else if c = '(' then { type := .LeftParen, str := [c], precedence := -1, rightAssociative := false }
  else if c = ')' then { type := .RightParen, str := [c], precedence := -1, rightAssociative := false }
  else if c = '^' then { type := .Operator, str := [c], precedence := 4, rightAssociative := true }
  else if c = '*' then { type := .Operator, str := [c], precedence := 3, rightAssociative := false }
  else if c = '/' then { type := .Operator, str := [c], precedence := 3, rightAssociative := false }
  else if c = '+' then { type := .Operator, str := [c], precedence := 2, rightAssociative := false }
  else if c = '-' then { type := .Operator, str := [c], precedence := 2, rightAssociative := false }
  else { type := .Unknown, str := [c], precedence := -1, rightAssociative := false }

/-- The loop `for (p = expr.c_str(); *p; ++p)` of `ExprToTokens`, with the
number of iterations bounded by `fuel`. The loop ends at the first NUL
character or at the end of the string. -/
def tokensLoop : Nat → List Char → List Token
  | 0, _ => []
  | _ + 1, [] => []
  | fuel + 1, c :: cs =>
    if c = Char.ofNat 0 then []
    else if isdigit c then
      Token.mk2 .Number (takeDigits (c :: cs)).1 :: tokensLoop fuel (takeDigits (c :: cs)).2
    else
      charToken c :: tokensLoop fuel cs

/-- The function `ExprToTokens`. Every iteration of its loop consumes at
least one character, so `expr.length` iterations are enough. -/
def ExprToTokens (expr : List Char) : List Token :=
  tokensLoop expr.length expr

/-! ## Converter: `ShuntingYard` -/

/-- The local state of `ShuntingYard`: `queue`, `stack` (head = `stack.back()`)
and `gotOperator`. -/
structure SYState where
  queue : List Token
  stack : List Token
  gotOperator : Bool
  deriving DecidableEq, Repr

/-- The statement `queue.back().str += s` on a non-empty queue. -/
def appendToBack : List Token → List Char → List Token
  | [], _ => []
  | [t], s => [{ t with str := t.str ++ s }]
  | t :: u :: q, s => t :: appendToBack (u :: q) s

/-- The test of the `if` inside the `Operator` case: `o2` is popped before `o1` is pushed. -/
def popsBefore (o1 o2 : Token) : Bool :=
  (!o1.rightAssociative && decide (o1.precedence ≤ o2.precedence))
    || (o1.rightAssociative && decide (o1.precedence < o2.precedence))

/-- The `while (!stack.empty())` loop of the `Operator` case: the queue and
the stack when the loop is left. -/
def popOperators (o1 : Token) : List Token → List Token → List Token × List Token
  | queue, [] => (queue, [])
  | queue, o2 :: stack =>
    if popsBefore o1 o2 then popOperators o1 (queue ++ [o2]) stack
    else (queue, o2 :: stack)

/-- The body of the loop `for (auto token : tokens)` of `ShuntingYard`. -/
def syStep (st : SYState) (token : Token) : Except Failure SYState :=
  match token.type with
  | .Number =>
    match st.queue.getLast? with
    | some back =>
      if back.str.contains '.' && !st.gotOperator then
        .ok { st with queue := appendToBack st.queue token.str }
      else
        .ok { st with queue := st.queue ++ [token], gotOperator := false }
    | none => .ok { st with queue := st.queue ++ [token] }
  | .Dot =>
    match st.queue with
    | [] => .error .undefinedBehaviour
    | _ :: _ => .ok { st with queue := appendToBack st.queue ['.'] }
  | .Operator =>
    let r := popOperators token st.queue st.stack
    .ok { queue := r.1, stack := token :: r.2, gotOperator := true }
  | .LeftParen => .ok { st with stack := token :: st.stack }
  | .RightParen =>
    match st.stack with
    | [] => .error (.rightParenError token.str)
    | tos :: rest =>
      if tos.type ≠ .LeftParen then
        match rest with
        | [] => .error .undefinedBehaviour
        | _ :: rest2 => .ok { st with queue := st.queue ++ [tos], stack := rest2 }
      else .ok { st with stack := rest }
  | .Unknown => .error (.tokenError token.str)

/-- The loop `for (auto token : tokens)` of `ShuntingYard`. -/
def syLoop : SYState → List Token → Except Failure SYState
  | st, [] => .ok st
  | st, token :: tokens =>
    match syStep st token with
    | .ok st2 => syLoop st2 tokens
    | .error e => .error e

/-- The final loop `while (!stack.empty())` of `ShuntingYard`. -/
def drainStack : List Token → List Token → Except Failure (List Token)
  | queue, [] => .ok queue
  | queue, t :: stack =>
    if t.type = .LeftParen then .error .mismatchedParentheses
    else drainStack (queue ++ [t]) stack

/-- The two loops of `ShuntingYard` run from a given state: the loop over the
tokens, then the final loop over the stack. -/
def syFrom (st : SYState) (tokens : List Token) : Except Failure (List Token) :=
  match syLoop st tokens with
  | .ok st2 => drainStack st2.queue st2.stack
  | .error e => .error e

/-- The function `ShuntingYard`: `queue` and `stack` start empty, `gotOperator` false. -/
def ShuntingYard (tokens : List Token) : Except Failure (List Token) :=
  syFrom { queue := [], stack := [], gotOperator := false } tokens

/-! ## Evaluator: the loop of `calculator` -/

/-- The floating-point operations the evaluation loop uses, on a carrier `α`
standing for `double`: `std::stof` (`none` when it throws), `pow`, `*`, `/`,
`+`, `-`. -/
structure Arith (α : Type) where
  stof : List Char → Option α
  pow : α → α → α
  mul : α → α → α
  div : α → α → α
  add : α → α → α
  sub : α → α → α

/-- The body of the loop `while (!queue.empty())` of `calculator`, for the
token taken from the front of the queue; `stack` has `stack.back()` as head.
In the `Operator` case `rhs` and `lhs` are read and popped before the switch
on `token.str[0]` (which is NUL for an empty text). -/
def evalStep {α : Type} (A : Arith α) (stack : List α) (token : Token) :
    Except Failure (List α) :=
  match token.type with
  | .Number =>
    match A.stof token.str with
    | some v => .ok (v :: stack)
    | none => .error (.stofException token.str)
  | .Dot => .ok stack
  | .Operator =>
    match stack with
    | rhs :: lhs :: rest =>
      let c := token.str.headD (Char.ofNat 0)
      if c = '^' then .ok (A.pow lhs rhs :: rest)
      else if c = '*' then .ok (A.mul lhs rhs :: rest)
      else if c = '/' then .ok (A.div lhs rhs :: rest)
      else if c = '+' then .ok (A.add lhs rhs :: rest)
      else if c = '-' then .ok (A.sub lhs rhs :: rest)
      else .error (.operatorError token.str)
    | _ => .error .undefinedBehaviour
  | _ => .error .evalTokenError

/-- The loop `while (!queue.empty())` of `calculator`: the value stack when
the queue is exhausted. -/
def evalLoop {α : Type} (A : Arith α) : List α → List Token → Except Failure (List α)
  | stack, [] => .ok stack
  | stack, token :: queue =>
    match evalStep A stack token with
    | .ok stack2 => evalLoop A stack2 queue
    | .error e => .error e

/-- The expression `stack.back()` printed as the result. -/
def resultOf {α : Type} : List α → Except Failure α
  | [] => .error .undefinedBehaviour
  | v :: _ => .ok v

/-- The function `calculator`: the value it prints after `"result = "`, or
the way the run ends before that. -/
def calculator {α : Type} (A : Arith α) (expr : List Char) : Except Failure α :=
  match ShuntingYard (ExprToTokens (FormatString expr)) with
  | .error e => .error e
  | .ok queue =>
    match evalLoop A [] queue with
    | .error e => .error e
    | .ok stack => resultOf stack

/-! ## Exact rational arithmetic, to run the evaluator on -/

/-- The value of a decimal digit. -/
def digitValue (c : Char) : Nat := c.toNat - 48

/-- The value of a run of decimal digits. -/
def decimalValue (ds : List Char) : Nat :=
  ds.foldl (fun n c => 10 * n + digitValue c) 0

/-- The exact value of the longest prefix `digits [ '.' digits ]` of a text,
`none` when that prefix has no digit (`std::stof` throws). Number tokens
carry only digits and dots; rounding to `float` is not modelled. -/
def exactStof (s : List Char) : Option (Option ℚ) :=
  match (takeDigits s).2 with
  | '.' :: r =>
    if (takeDigits s).1 = [] ∧ (takeDigits r).1 = [] then none
    else some (some ((decimalValue (takeDigits s).1 : ℚ)
      + (decimalValue (takeDigits r).1 : ℚ) / 10 ^ (takeDigits r).1.length))
  | _ =>
    if (takeDigits s).1 = [] then none
    else some (some (decimalValue (takeDigits s).1 : ℚ))

/-- Exact power with an integer exponent; `none` otherwise. -/
def exactPow : Option ℚ → Option ℚ → Option ℚ
  | some x, some y =>
    if y.den = 1 then
      (if x = 0 ∧ y.num < 0 then none else some (x ^ y.num))
    else none
  | _, _ => none

/-- Exact quotient; `none` for a zero divisor. -/
def exactDiv : Option ℚ → Option ℚ → Option ℚ
  | some x, some y => if y = 0 then none else some (x / y)
  | _, _ => none

/-- Exact rational arithmetic: the real-number value of each operation where
it is a rational number, `none` where it is not (division by zero, a
non-integer exponent). It agrees with `double` arithmetic on the runs whose
literals and intermediate values are exactly representable. -/
def exactArith : Arith (Option ℚ) :=
  { stof := exactStof
    pow := exactPow
    mul := fun a b => (· * ·) <$> a <*> b
    div := exactDiv
    add := fun a b => (· + ·) <$> a <*> b
    sub := fun a b => (· - ·) <$> a <*> b }

/-! ## The specification side of the normalizer -/

/-- The normalizer as the specification words it: going through the string
once, every space is deleted, every comma becomes a period and every other
character is kept in place. -/
def normalizeSpec : List Char → List Char
  | [] => []
  | c :: cs =>
    if c = ' ' then normalizeSpec cs
    else if c = ',' then '.' :: normalizeSpec cs
    else c :: normalizeSpec cs

/-- The characters the tokenizer classifies: decimal digits and `. ( ) ^ * / + -`. -/
def knownChar (c : Char) : Bool :=
  isdigit c || c == '.' || c == '(' || c == ')' || c == '^' || c == '*' || c == '/'
    || c == '+' || c == '-'

/-- A non-empty run of decimal digits. -/
def DigitRun (s : List Char) : Prop :=
  s ≠ [] ∧ ∀ c ∈ s, isdigit c = true

instance (s : List Char) : Decidable (DigitRun s) := by
  unfold DigitRun; infer_instance

deriving instance DecidableEq for Except

/-- The number of tokens of a given type in a token sequence. -/
def countType (ty : TokenType) (toks : List Token) : Nat :=
  toks.countP (fun t => t.type = ty)

/-- What holds of every token `ExprToTokens` emits for a classified
character: its type is not `Unknown`, a parenthesis or dot has precedence
`-1`, an operator has a precedence of at least `2`. -/
def Token.Classified (t : Token) : Prop :=
  t.type ≠ .Unknown ∧ (t.type ≠ .Operator → t.precedence = -1) ∧
    (t.type = .Operator → 2 ≤ t.precedence)

/-! ## The specification side of the conversion: parse trees -/

/-- The five binary operators of the expression language. -/
inductive BinOp
  | pow
  | mul
  | div
  | add
  | sub
  deriving DecidableEq, Repr

/-- The character of an operator. -/
def BinOp.char : BinOp → Char
  | .pow => '^'
  | .mul => '*'
  | .div => '/'
  | .add => '+'
  | .sub => '-'

/-- Binding strength: `^` binds tighter than `*` and `/`, which bind tighter
than `+` and `-`. -/
def BinOp.level : BinOp → Nat
  | .pow => 3
  | .mul => 2
  | .div => 2
  | .add => 1
  | .sub => 1

/-- Grouping direction: `^` groups right to left, the others left to right. -/
def BinOp.rightToLeft : BinOp → Bool
  | .pow => true
  | _ => false

/-- A binary expression tree over number literals. -/
inductive Tree
  | num (digits : List Char)
  | node (op : BinOp) (lhs rhs : Tree)
  deriving DecidableEq, Repr

/-- The operator at the root, if the tree is not a literal. -/
def Tree.root? : Tree → Option BinOp
  | .num _ => none
  | .node o _ _ => some o

/-- The first literal `n0` of the in-order listing. -/
def Tree.first : Tree → List Char
  | .num d => d
  | .node _ l _ => l.first

/-- The in-order listing after the first literal: `op1 n1 ... opk nk`. -/
def Tree.rest : Tree → List (BinOp × List Char)
  | .num _ => []
  | .node o l r => l.rest ++ (o, r.first) :: r.rest

/-- The post-order listing of a tree, as tokens. -/
def Tree.postorder : Tree → List Token
  | .num d => [Token.mk2 .Number d]
  | .node o l r => l.postorder ++ r.postorder ++ [charToken o.char]

/-- The tree is grouped by the precedence rules: under an operator that
groups left to right, the left operand is a literal or has a root that binds
at least as tightly and the right operand is a literal or has a root that
binds strictly tighter; under `^`, which groups right to left, the two
conditions are exchanged. -/
def Tree.Grouped : Tree → Prop
  | .num _ => True
  | .node o l r =>
    l.Grouped ∧ r.Grouped ∧
    (∀ p ∈ l.root?, if o.rightToLeft then o.level < p.level else o.level ≤ p.level) ∧
    (∀ p ∈ r.root?, if o.rightToLeft then o.level ≤ p.level else o.level < p.level)

/-- The text of the parenthesis-free expression `n0 op1 n1 ... opk nk`. -/
def flatText : List Char → List (BinOp × List Char) → List Char
  | n0, [] => n0
  | n0, (o, n) :: rest => n0 ++ o.char :: flatText n rest

/-- The tree of `t op n`, for a grouped tree `t`: the new operator goes
below every operator on the right edge of `t` that binds less tightly, or as
tightly when the new operator groups right to left. -/
def Tree.extend : Tree → BinOp → List Char → Tree
  | .num d, o, n => .node o (.num d) (.num n)
  | .node p l r, o, n =>
    if p.level < o.level ∨ (p.level = o.level ∧ o.rightToLeft = true) then
      .node p l (r.extend o n)
    else .node o (.node p l r) (.num n)

/-- The parse tree of `n0 op1 n1 ... opk nk`. -/
def parseFlat (n0 : List Char) (rest : List (BinOp × List Char)) : Tree :=
  rest.foldl (fun t p => t.extend p.1 p.2) (.num n0)

/-- The literals of a tree, left to right. -/
def Tree.leaves : Tree → List (List Char)
  | .num d => [d]
  | .node _ l r => l.leaves ++ r.leaves

/-- The operators of a tree, left to right. -/
def Tree.ops : Tree → List BinOp
  | .num _ => []
  | .node o l r => l.ops ++ o :: r.ops

/-- The in-order listing of a tree, as tokens. -/
def Tree.tokens : Tree → List Token
  | .num d => [Token.mk2 .Number d]
  | .node o l r => l.tokens ++ charToken o.char :: r.tokens

/-- The part of the post-order listing that is in the output queue when the
last token of the tree has been read. -/
def Tree.emitted : Tree → List Token
  | .num d => [Token.mk2 .Number d]
  | .node _ l r => l.postorder ++ r.emitted

/-- The operators of the right edge of the tree, innermost first: they are
on the stack when the last token of the tree has been read. -/
def Tree.pending : Tree → List BinOp
  | .num _ => []
  | .node o _ r => r.pending ++ [o]

/-! ## The specification side of the tokenizer -/

/-- The part of a string that `c_str()` scanning sees: the characters before
the first NUL. -/
def untilNul (s : List Char) : List Char :=
  s.takeWhile (fun c => c != Char.ofNat 0)

/-- The five operator characters `^ * / + -`. -/
def opChar (c : Char) : Bool :=
  c == '^' || c == '*' || c == '/' || c == '+' || c == '-'

/-- The token type the specification gives to a non-digit character. -/
def specType (c : Char) : TokenType :=
  if opChar c then .Operator
  else if c = '(' then .LeftParen
  else if c = ')' then .RightParen
  else if c = '.' then .Dot
  else .Unknown

/-- The precedence table of the specification: `^` = 4, `*` `/` = 3,
`+` `-` = 2, the sentinel `-1` for every other character. -/
def specPrecedence (c : Char) : Int :=
  if c = '^' then 4
  else if c = '*' ∨ c = '/' then 3
  else if c = '+' ∨ c = '-' then 2
  else -1

/-- The token the specification describes for a non-digit character: its
text is the character, only `^` is right-associative. -/
def specToken (c : Char) : Token :=
  { type := specType c, str := [c], precedence := specPrecedence c,
    rightAssociative := decide (c = '^') }

/-- The maximal digit runs of a string: the non-empty pieces between its
non-digit characters. -/
def digitRuns (s : List Char) : List (List Char) :=
  (s.splitOnP (fun c => !isdigit c)).filter (fun r => !r.isEmpty)

/-! ## The specification side of the evaluator -/

/-- The operation `lhs OP rhs` of an operator in an arithmetic. -/
def BinOp.apply {α : Type} (A : Arith α) : BinOp → α → α → α
  | .pow, lhs, rhs => A.pow lhs rhs
  | .mul, lhs, rhs => A.mul lhs rhs
  | .div, lhs, rhs => A.div lhs rhs
  | .add, lhs, rhs => A.add lhs rhs
  | .sub, lhs, rhs => A.sub lhs rhs

/-- The value of an expression tree: a literal is read by `stof`, a node is
`lhs OP rhs` with `lhs` the value of the left subtree and `rhs` the value of
the right subtree; `none` when a literal is not read. -/
def Tree.value {α : Type} (A : Arith α) : Tree → Option α
  | .num d => A.stof d
  | .node o l r =>
    match l.value A, r.value A with
    | some lhs, some rhs => some (o.apply A lhs rhs)
    | _, _ => none

/-- A valid postfix sequence, read left to right with `n` values on the
stack: every Operator token finds at least two values (and leaves one), every
Number token adds one. -/
def operandsAvailable : Nat → List Token → Bool
  | _, [] => true
  | n, t :: ts =>
    match t.type with
    | .Number => operandsAvailable (n + 1) ts
    | .Operator => decide (2 ≤ n) && operandsAvailable (n - 1) ts
    | _ => operandsAvailable n ts

/-! ## The specification side of the tokens in the output queue -/

/-- A well-formed decimal numeral: one or more digits, optionally followed
by one `.` and one or more digits. -/
def wellFormedNumeral (s : List Char) : Bool :=
  !(s.takeWhile isdigit).isEmpty &&
    ((s.dropWhile isdigit).isEmpty ||
      ((s.dropWhile isdigit).head? == some '.' && !(s.dropWhile isdigit).tail.isEmpty &&
        (s.dropWhile isdigit).tail.all isdigit))

/-- A text that starts with a digit and holds only digits and dots. -/
def numeralLike : List Char → Bool
  | [] => false
  | c :: cs => isdigit c && cs.all (fun x => isdigit x || x == '.')

/-- A text that starts with one of the operator characters `^ * / + -`. -/
def operatorLike : List Char → Bool
  | [] => false
  | c :: _ => opChar c

/-- What holds of every token `ExprToTokens` emits: a number is a digit run,
an operator is an operator character with a precedence of at least `2`,
every other token has precedence `-1`. -/
def Token.Scanned (t : Token) : Prop :=
  (t.type = .Number → DigitRun t.str) ∧
  (t.type = .Operator → operatorLike t.str = true ∧ 2 ≤ t.precedence) ∧
  (t.type ≠ .Operator → t.precedence = -1)

/-- What holds of every token of the output queue of `ShuntingYard`. -/
def Token.QueueOK (t : Token) : Prop :=
  (t.type = .Number ∧ numeralLike t.str = true) ∨
  (t.type = .Operator ∧ operatorLike t.str = true)

/-- What holds of every token of the operator stack of `ShuntingYard`. -/
def Token.StackOK (t : Token) : Prop :=
  (t.type = .Operator ∧ operatorLike t.str = true ∧ 2 ≤ t.precedence) ∨
  (t.type = .LeftParen ∧ t.precedence = -1)

/-! # Properties -/

/-! ## Normalizer -/

theorem FormatString_nil : FormatString [] = [] := rfl

theorem FormatString_cons (c : Char) (cs : List Char) :
    FormatString (c :: cs) =
      if c = ' ' then FormatString cs
      else (if c = ',' then '.' else c) :: FormatString cs := by
  by_cases h : c = ' '
  · simp [FormatString, RemoveSpaces, ReplaceCommas, h]
  · simp [FormatString, RemoveSpaces, ReplaceCommas, h]

theorem FormatString_append (s t : List Char) :
    FormatString (s ++ t) = FormatString s ++ FormatString t := by
  simp [FormatString, RemoveSpaces, ReplaceCommas]

theorem FormatString_eq_self (s : List Char) (h1 : ' ' ∉ s) (h2 : ',' ∉ s) :
    FormatString s = s := by
  induction s with
  | nil => rfl
  | cons c cs ih =>
    simp only [List.mem_cons, not_or] at h1 h2
    rw [FormatString_cons, ih h1.2 h2.2]
    have hc1 : c ≠ ' ' := fun h => h1.1 h.symm
    have hc2 : c ≠ ',' := fun h => h2.1 h.symm
    simp [hc1, hc2]

theorem space_not_mem_FormatString (s : List Char) : ' ' ∉ FormatString s := by
  induction s with
  | nil => simp [FormatString_nil]
  | cons c cs ih =>
    rw [FormatString_cons]
    by_cases h : c = ' '
    · simpa [h] using ih
    · by_cases h2 : c = ','
      · simp [h2, ih]
      · simp only [h, h2, if_false, List.mem_cons, not_or]
        exact ⟨fun e => h e.symm, ih⟩

theorem comma_not_mem_FormatString (s : List Char) : ',' ∉ FormatString s := by
  induction s with
  | nil => simp [FormatString_nil]
  | cons c cs ih =>
    rw [FormatString_cons]
    by_cases h : c = ' '
    · simpa [h] using ih
    · by_cases h2 : c = ','
      · simp [h2, ih]
      · simp only [h, h2, if_false, List.mem_cons, not_or]
        exact ⟨fun e => h2 e.symm, ih⟩

theorem FormatString_filter_space (s : List Char) :
    FormatString (s.filter (fun c => c != ' ')) = FormatString s := by
  simp [FormatString, RemoveSpaces]

/-! ## Tokenizer -/

theorem isdigit_ne_nul (c : Char) (h : isdigit c = true) : c ≠ Char.ofNat 0 := by
  intro e
  subst e
  revert h
  decide

theorem takeDigits_length_le (s : List Char) : (takeDigits s).2.length ≤ s.length := by
  induction s with
  | nil => simp [takeDigits]
  | cons c cs ih =>
    unfold takeDigits
    by_cases h : isdigit c = true
    · simp only [h, if_true, List.length_cons]; omega
    · simp [h]

theorem takeDigits_append (a rest : List Char) (ha : ∀ c ∈ a, isdigit c = true)
    (hr : ∀ c ∈ rest.head?, isdigit c = false) :
    takeDigits (a ++ rest) = (a, rest) := by
  induction a with
  | nil =>
    cases rest with
    | nil => rfl
    | cons c cs =>
      have : isdigit c = false := hr c (by simp)
      simp [takeDigits, this]
  | cons c cs ih =>
    have hc : isdigit c = true := ha c (by simp)
    have := ih (fun x hx => ha x (List.mem_cons_of_mem _ hx))
    simp [takeDigits, hc, this]

theorem tokensLoop_fuel (n : Nat) : ∀ (m : Nat) (s : List Char),
    s.length ≤ n → s.length ≤ m → tokensLoop n s = tokensLoop m s := by
  induction n with
  | zero =>
    intro m s hn _
    have : s = [] := List.length_eq_zero.mp (Nat.le_zero.mp hn)
    subst this
    cases m <;> rfl
  | succ n ih =>
    intro m s hn hm
    cases s with
    | nil => cases m <;> rfl
    | cons c cs =>
      cases m with
      | zero => simp at hm
      | succ m =>
        simp only [List.length_cons, Nat.add_le_add_iff_right] at hn hm
        have hlen := takeDigits_length_le cs
        unfold tokensLoop
        by_cases h0 : c = Char.ofNat 0
        · simp [h0]
        · by_cases hd : isdigit c = true
          · have h2 : (takeDigits (c :: cs)).2.length ≤ cs.length := by
              unfold takeDigits
              simpa [hd] using hlen
            simp only [h0, hd, if_false, if_true]
            rw [ih m _ (by omega) (by omega)]
          · have hrec := ih m _ hn hm
            simp [h0, hd, hrec]

theorem ExprToTokens_nil : ExprToTokens [] = [] := rfl

theorem ExprToTokens_cons (c : Char) (cs : List Char) :
    ExprToTokens (c :: cs) =
      if c = Char.ofNat 0 then []
      else if isdigit c then
        Token.mk2 .Number (takeDigits (c :: cs)).1 :: ExprToTokens (takeDigits (c :: cs)).2
      else charToken c :: ExprToTokens cs := by
  have h2 : (takeDigits (c :: cs)).2.length ≤ cs.length ∨ isdigit c = false := by
    by_cases h : isdigit c = true
    · left
      have := takeDigits_length_le cs
      unfold takeDigits
      simpa [h] using this
    · right; simpa using h
  unfold ExprToTokens
  simp only [List.length_cons]
  rw [tokensLoop]
  by_cases h0 : c = Char.ofNat 0
  · simp [h0]
  · by_cases hd : isdigit c = true
    · simp only [h0, hd, if_false, if_true]
      rcases h2 with h2 | h2
      · rw [tokensLoop_fuel cs.length _ _ h2 (le_refl _)]
      · simp [hd] at h2
    · simp [h0, hd]

theorem ExprToTokens_nondigit (c : Char) (cs : List Char) (h0 : c ≠ Char.ofNat 0)
    (hd : isdigit c = false) :
    ExprToTokens (c :: cs) = charToken c :: ExprToTokens cs := by
  rw [ExprToTokens_cons]; simp [h0, hd]

theorem ExprToTokens_digits (a rest : List Char) (ha : DigitRun a)
    (hr : ∀ c ∈ rest.head?, isdigit c = false) :
    ExprToTokens (a ++ rest) = Token.mk2 .Number a :: ExprToTokens rest := by
  obtain ⟨hne, hda⟩ := ha
  cases a with
  | nil => exact absurd rfl hne
  | cons c cs =>
    have hc : isdigit c = true := hda c (by simp)
    have h0 := isdigit_ne_nul c hc
    have ht := takeDigits_append (c :: cs) rest hda hr
    rw [List.cons_append] at ht ⊢
    rw [ExprToTokens_cons, ht]
    simp [h0, hc]

/-! ## Claims on the normalizer -/

/-- C9: for every string `s`, `FormatString s` is `s` with every space deleted
and every comma replaced by a period, the other characters kept in order
(`normalizeSpec`); the function is total and its result contains neither a
space nor a comma. -/
theorem FormatString_spec (s : List Char) :
    FormatString s = normalizeSpec s ∧ ' ' ∉ FormatString s ∧ ',' ∉ FormatString s := by
  refine ⟨?_, space_not_mem_FormatString s, comma_not_mem_FormatString s⟩
  induction s with
  | nil => rfl
  | cons c cs ih =>
    rw [FormatString_cons, normalizeSpec, ih]
    by_cases h : c = ' '
    · simp [h]
    · by_cases h2 : c = ','
      · simp [h2]
      · simp [h, h2]

/-- C10: normalization is idempotent: a string `s` without space and comma is
returned unchanged, and normalizing the normal form of any string `t` again
changes nothing. -/
theorem FormatString_idempotent (s t : List Char) (h1 : ' ' ∉ s) (h2 : ',' ∉ s) :
    FormatString s = s ∧ FormatString (FormatString t) = FormatString t :=
  ⟨FormatString_eq_self s h1 h2,
    FormatString_eq_self _ (space_not_mem_FormatString t) (comma_not_mem_FormatString t)⟩

/-- C10 at `s = "2^3"` and `t = "1, 5"`. -/
theorem FormatString_idempotent_witness :
    (' ' ∉ "2^3".toList ∧ ',' ∉ "2^3".toList) ∧
    FormatString "2^3".toList = "2^3".toList ∧
    FormatString (FormatString "1, 5".toList) = FormatString "1, 5".toList :=
  ⟨⟨by decide, by decide⟩,
    FormatString_idempotent "2^3".toList "1, 5".toList (by decide) (by decide)⟩

/-- C8: for every string `s`, `calculator` treats `s` and `s` without its
spaces alike: the normalized string, the token sequence, the postfix sequence
and the result or failure are the same, for every arithmetic; the spaced test
expression of `main` loses its spaces to `"20-30/3+4*2^3"`. -/
theorem calculator_ignores_spaces {α : Type} (A : Arith α) (s : List Char) :
    FormatString (s.filter (fun c => c != ' ')) = FormatString s ∧
    ExprToTokens (FormatString (s.filter (fun c => c != ' '))) =
      ExprToTokens (FormatString s) ∧
    ShuntingYard (ExprToTokens (FormatString (s.filter (fun c => c != ' ')))) =
      ShuntingYard (ExprToTokens (FormatString s)) ∧
    calculator A (s.filter (fun c => c != ' ')) = calculator A s ∧
    "20    -30/  3 +4  *2   ^3".toList.filter (fun c => c != ' ') = "20-30/3+4*2^3".toList := by
  have h := FormatString_filter_space s
  refine ⟨h, by rw [h], by rw [h], ?_, by decide⟩
  unfold calculator
  rw [h]

/-! ## Claims settled by running the functions -/

/-- C2: on `"3+4*2/(1-5)^2^3"` the converter returns `3 4 2 * 1 5 - 2 3 ^ ^ / +`,
and on that sequence the evaluation loop ends, in every arithmetic that
reads the five literals, with the single value
`3 + (4 * 2) / ((1 - 5) ^ (2 ^ 3))`, which `calculator` prints. -/
theorem roundtrip_precedence {α : Type} (A : Arith α) (v1 v2 v3 v4 v5 : α)
    (h1 : A.stof ['1'] = some v1) (h2 : A.stof ['2'] = some v2) (h3 : A.stof ['3'] = some v3)
    (h4 : A.stof ['4'] = some v4) (h5 : A.stof ['5'] = some v5) :
    ShuntingYard (ExprToTokens "3+4*2/(1-5)^2^3".toList) =
      .ok [Token.mk2 .Number ['3'], Token.mk2 .Number ['4'], Token.mk2 .Number ['2'],
        charToken '*', Token.mk2 .Number ['1'], Token.mk2 .Number ['5'], charToken '-',
        Token.mk2 .Number ['2'], Token.mk2 .Number ['3'], charToken '^', charToken '^',
        charToken '/', charToken '+'] ∧
    evalLoop A []
        [Token.mk2 .Number ['3'], Token.mk2 .Number ['4'], Token.mk2 .Number ['2'],
          charToken '*', Token.mk2 .Number ['1'], Token.mk2 .Number ['5'], charToken '-',
          Token.mk2 .Number ['2'], Token.mk2 .Number ['3'], charToken '^', charToken '^',
          charToken '/', charToken '+'] =
      .ok [A.add v3 (A.div (A.mul v4 v2) (A.pow (A.sub v1 v5) (A.pow v2 v3)))] ∧
    calculator A "3+4*2/(1-5)^2^3".toList =
      .ok (A.add v3 (A.div (A.mul v4 v2) (A.pow (A.sub v1 v5) (A.pow v2 v3)))) := by
  have hq : ShuntingYard (ExprToTokens "3+4*2/(1-5)^2^3".toList) =
      .ok [Token.mk2 .Number ['3'], Token.mk2 .Number ['4'], Token.mk2 .Number ['2'],
        charToken '*', Token.mk2 .Number ['1'], Token.mk2 .Number ['5'], charToken '-',
        Token.mk2 .Number ['2'], Token.mk2 .Number ['3'], charToken '^', charToken '^',
        charToken '/', charToken '+'] := by decide
  have hf : FormatString "3+4*2/(1-5)^2^3".toList = "3+4*2/(1-5)^2^3".toList := by decide
  have he : evalLoop A []
        [Token.mk2 .Number ['3'], Token.mk2 .Number ['4'], Token.mk2 .Number ['2'],
          charToken '*', Token.mk2 .Number ['1'], Token.mk2 .Number ['5'], charToken '-',
          Token.mk2 .Number ['2'], Token.mk2 .Number ['3'], charToken '^', charToken '^',
          charToken '/', charToken '+'] =
      .ok [A.add v3 (A.div (A.mul v4 v2) (A.pow (A.sub v1 v5) (A.pow v2 v3)))] := by
    simp [evalLoop, evalStep, Token.mk2, charToken, h1, h2, h3, h4, h5]
  refine ⟨hq, he, ?_⟩
  unfold calculator
  rw [hf, hq]
  simp only [he, resultOf]

/-- C2 in exact rational arithmetic: the five literals are read as `1` .. `5`
and the value printed is `3 + 8/65536 = 3.0001220703125`. -/
theorem roundtrip_precedence_witness :
    (exactArith.stof ['1'] = some (some 1) ∧ exactArith.stof ['2'] = some (some 2) ∧
      exactArith.stof ['3'] = some (some 3) ∧ exactArith.stof ['4'] = some (some 4) ∧
      exactArith.stof ['5'] = some (some 5)) ∧
    calculator exactArith "3+4*2/(1-5)^2^3".toList = .ok (some (3 + 8 / 65536)) ∧
    ((3 : ℚ) + 8 / 65536 = 30001220703125 / 10000000000000) := by
  have hs : ∀ (c : Char) (n : ℕ), isdigit c = true → digitValue c = n →
      exactArith.stof [c] = some (some (n : ℚ)) := by
    intro c n hc hn
    simp [exactArith, exactStof, takeDigits, hc, decimalValue, hn]
  have h1 : exactArith.stof ['1'] = some (some 1) := by
    simpa using hs '1' 1 (by decide) (by decide)
  have h2 : exactArith.stof ['2'] = some (some 2) := by
    simpa using hs '2' 2 (by decide) (by decide)
  have h3 : exactArith.stof ['3'] = some (some 3) := by
    simpa using hs '3' 3 (by decide) (by decide)
  have h4 : exactArith.stof ['4'] = some (some 4) := by
    simpa using hs '4' 4 (by decide) (by decide)
  have h5 : exactArith.stof ['5'] = some (some 5) := by
    simpa using hs '5' 5 (by decide) (by decide)
  have h := (roundtrip_precedence exactArith (some 1) (some 2) (some 3) (some 4) (some 5)
    h1 h2 h3 h4 h5).2.2
  refine ⟨⟨h1, h2, h3, h4, h5⟩, ?_, by norm_num⟩
  rw [h]
  simp [exactArith, exactPow, exactDiv]
  norm_num

/-- C3 (the code departs from the claim): on `"(1+2*3)"` the `RightParen`
case moves `*` to the queue, drops `+` and leaves `(` on the stack, so the
conversion ends with the mismatched-parentheses error instead of `1 2 3 * +`. -/
theorem rightParen_drops_operator :
    ExprToTokens "(1+2*3)".toList =
      [charToken '(', Token.mk2 .Number ['1'], charToken '+', Token.mk2 .Number ['2'],
        charToken '*', Token.mk2 .Number ['3'], charToken ')'] ∧
    syLoop { queue := [], stack := [], gotOperator := false } (ExprToTokens "(1+2*3)".toList) =
      .ok { queue := [Token.mk2 .Number ['1'], Token.mk2 .Number ['2'],
              Token.mk2 .Number ['3'], charToken '*']
            stack := [charToken '(']
            gotOperator := false } ∧
    ShuntingYard (ExprToTokens "(1+2*3)".toList) = .error .mismatchedParentheses ∧
    ShuntingYard (ExprToTokens "(1+2*3)".toList) ≠
      .ok [Token.mk2 .Number ['1'], Token.mk2 .Number ['2'], Token.mk2 .Number ['3'],
        charToken '*', charToken '+'] := by
  refine ⟨by decide, by decide, by decide, by decide⟩

/-- C5 (the code departs from the claim): on `"1+2*3)"`, whose `)` has no
matching `(`, the conversion reports nothing and returns `1 2 3 *`, and
`calculator` prints `6`; on `"1+2)"` the `RightParen` case pops the emptied
stack and no error is reported either. -/
theorem extra_rightParen_unreported :
    ShuntingYard (ExprToTokens "1+2*3)".toList) =
      .ok [Token.mk2 .Number ['1'], Token.mk2 .Number ['2'], Token.mk2 .Number ['3'],
        charToken '*'] ∧
    calculator exactArith "1+2*3)".toList = .ok (some 6) ∧
    ShuntingYard (ExprToTokens "1+2)".toList) = .error .undefinedBehaviour := by
  have hq : ShuntingYard (ExprToTokens (FormatString "1+2*3)".toList)) =
      .ok [Token.mk2 .Number ['1'], Token.mk2 .Number ['2'], Token.mk2 .Number ['3'],
        charToken '*'] := by decide
  refine ⟨by decide, ?_, by decide⟩
  unfold calculator
  rw [hq]
  simp [evalLoop, evalStep, Token.mk2, charToken, resultOf, exactArith, exactStof, takeDigits,
    isdigit, decimalValue, digitValue]
  norm_num

/-! ## Decimal assembly -/

theorem ExprToTokens_decimal (a b : List Char) (ha : DigitRun a) (hb : DigitRun b) :
    ExprToTokens (a ++ '.' :: b) =
      [Token.mk2 .Number a, charToken '.', Token.mk2 .Number b] := by
  rw [ExprToTokens_digits a _ ha (by simp; decide),
    ExprToTokens_nondigit '.' b (by decide) (by decide)]
  have hb2 := ExprToTokens_digits b [] hb (by simp)
  rw [List.append_nil] at hb2
  rw [hb2, ExprToTokens_nil]

/-- C7: for non-empty digit runs `a` and `b`, `FormatString` turns `"a,b"`
into `"a.b"`, its tokens are the number `a`, a dot and the number `b`, and
`ShuntingYard` returns exactly one token: the Number with text `"a.b"`. -/
theorem decimal_assembly (a b : List Char) (ha : DigitRun a) (hb : DigitRun b) :
    FormatString (a ++ ',' :: b) = a ++ '.' :: b ∧
    ShuntingYard (ExprToTokens (a ++ '.' :: b)) = .ok [Token.mk2 .Number (a ++ '.' :: b)] := by
  have hns : ∀ s : List Char, (∀ c ∈ s, isdigit c = true) → FormatString s = s := by
    intro s hs
    apply FormatString_eq_self
    · intro h; exact absurd (hs _ h) (by decide)
    · intro h; exact absurd (hs _ h) (by decide)
  constructor
  · rw [FormatString_append, FormatString_cons, hns a ha.2, hns b hb.2]
    simp
  · rw [ExprToTokens_decimal a b ha hb]
    simp [ShuntingYard, syFrom, syLoop, syStep, Token.mk2, charToken, appendToBack, drainStack]

/-- C7 at `a = "1"`, `b = "5"`: the input `"1,5"` gives the single Number `"1.5"`. -/
theorem decimal_assembly_witness :
    (DigitRun ['1'] ∧ DigitRun ['5']) ∧
    FormatString "1,5".toList = "1.5".toList ∧
    ShuntingYard (ExprToTokens "1.5".toList) = .ok [Token.mk2 .Number "1.5".toList] :=
  ⟨⟨by decide, by decide⟩, decimal_assembly ['1'] ['5'] (by decide) (by decide)⟩

/-! ## An induction principle for the tokenizer -/

theorem takeDigits_spec (s : List Char) :
    s = (takeDigits s).1 ++ (takeDigits s).2 ∧ (∀ c ∈ (takeDigits s).1, isdigit c = true) ∧
      (∀ c ∈ (takeDigits s).2.head?, isdigit c = false) := by
  induction s with
  | nil => simp [takeDigits]
  | cons c cs ih =>
    unfold takeDigits
    by_cases h : isdigit c = true
    · obtain ⟨h1, h2, h3⟩ := ih
      simp only [h, if_true]
      refine ⟨?_, ?_, h3⟩
      · rw [List.cons_append, ← h1]
      · intro x hx
        rcases List.mem_cons.mp hx with rfl | hx
        · exact h
        · exact h2 x hx
    · simp only [h]
      simpa using h

/-- Every string is tokenized in one of four ways: it is empty, it starts
with NUL, it starts with a maximal digit run, or it starts with another
character. -/
theorem ExprToTokens_induction (P : List Char → List Token → Prop)
    (hnil : P [] [])
    (hnul : ∀ cs, P (Char.ofNat 0 :: cs) [])
    (hdig : ∀ d r, DigitRun d → (∀ c ∈ r.head?, isdigit c = false) →
      P r (ExprToTokens r) → P (d ++ r) (Token.mk2 .Number d :: ExprToTokens r))
    (hchr : ∀ c cs, c ≠ Char.ofNat 0 → isdigit c = false →
      P cs (ExprToTokens cs) → P (c :: cs) (charToken c :: ExprToTokens cs)) :
    ∀ s, P s (ExprToTokens s) := by
  have key : ∀ n, ∀ s : List Char, s.length ≤ n → P s (ExprToTokens s) := by
    intro n
    induction n with
    | zero =>
      intro s hs
      have : s = [] := List.length_eq_zero.mp (Nat.le_zero.mp hs)
      subst this
      exact hnil
    | succ n ih =>
      intro s hs
      cases s with
      | nil => exact hnil
      | cons c cs =>
        by_cases h0 : c = Char.ofNat 0
        · subst h0
          rw [ExprToTokens_cons]
          simpa using hnul cs
        · by_cases hd : isdigit c = true
          · obtain ⟨h1, h2, h3⟩ := takeDigits_spec (c :: cs)
            have hne : (takeDigits (c :: cs)).1 ≠ [] := by
              unfold takeDigits; simp [hd]
            have hlen : (takeDigits (c :: cs)).2.length ≤ n := by
              have h4 := congrArg List.length h1
              have h5 : 0 < (takeDigits (c :: cs)).1.length := List.length_pos.mpr hne
              simp only [List.length_append, List.length_cons] at h4 hs
              omega
            have hrun : DigitRun (takeDigits (c :: cs)).1 := ⟨hne, h2⟩
            have hP := hdig _ _ hrun h3 (ih _ hlen)
            rw [← h1] at hP
            rw [ExprToTokens_cons]
            simpa [h0, hd] using hP
          · have hd2 : isdigit c = false := by simpa using hd
            have hP := hchr c cs h0 hd2 (ih cs (by simpa using hs))
            rw [ExprToTokens_nondigit c cs h0 hd2]
            exact hP
  intro s
  exact key s.length s (le_refl _)

theorem charToken_classified (c : Char) (hk : knownChar c = true) (hd : isdigit c = false) :
    (charToken c).Classified := by
  unfold knownChar at hk
  simp only [hd, Bool.false_or, Bool.or_eq_true, beq_iff_eq] at hk
  unfold Token.Classified charToken
  rcases hk with ((((((h | h) | h) | h) | h) | h) | h) | h <;> subst h <;> decide

theorem charToken_unknown (c : Char) (hk : knownChar c = false) :
    charToken c = { type := .Unknown, str := [c], precedence := -1, rightAssociative := false } := by
  unfold knownChar at hk
  simp only [Bool.or_eq_false_iff, beq_eq_false_iff_ne, ne_eq] at hk
  obtain ⟨⟨⟨⟨⟨⟨⟨⟨_, h1⟩, h2⟩, h3⟩, h4⟩, h5⟩, h6⟩, h7⟩, h8⟩ := hk
  simp [charToken, h1, h2, h3, h4, h5, h6, h7, h8]

theorem knownChar_ne_nul (c : Char) (hk : knownChar c = true) : c ≠ Char.ofNat 0 := by
  intro e
  subst e
  revert hk
  decide

/-- The tokens of a string of classified characters are classified, and
there are as many `LeftParen` (`RightParen`) tokens as `(` (`)`) characters. -/
theorem ExprToTokens_known (s : List Char) :
    (∀ c ∈ s, knownChar c = true) →
      (∀ t ∈ ExprToTokens s, t.Classified) ∧
      countType .LeftParen (ExprToTokens s) = s.count '(' ∧
      countType .RightParen (ExprToTokens s) = s.count ')' := by
  refine ExprToTokens_induction
    (fun s toks => (∀ c ∈ s, knownChar c = true) →
      (∀ t ∈ toks, t.Classified) ∧ countType .LeftParen toks = s.count '(' ∧
        countType .RightParen toks = s.count ')') ?_ ?_ ?_ ?_ s
  · intro _; simp [countType]
  · intro cs h
    exact absurd (h _ (List.mem_cons_self _ _)) (by decide)
  · intro d r hd _ ih h
    obtain ⟨h1, h2, h3⟩ := ih (fun c hc => h c (List.mem_append_right _ hc))
    have hl : d.count '(' = 0 :=
      List.count_eq_zero.mpr (fun hm => absurd (hd.2 _ hm) (by decide))
    have hr : d.count ')' = 0 :=
      List.count_eq_zero.mpr (fun hm => absurd (hd.2 _ hm) (by decide))
    refine ⟨?_, ?_, ?_⟩
    · intro t ht
      rcases List.mem_cons.mp ht with rfl | ht
      · simp [Token.Classified, Token.mk2]
      · exact h1 t ht
    · simp only [countType] at h2 ⊢
      rw [List.count_append, hl, ← h2]
      simp [List.countP_cons, Token.mk2]
    · simp only [countType] at h3 ⊢
      rw [List.count_append, hr, ← h3]
      simp [List.countP_cons, Token.mk2]
  · intro c cs h0 hd ih h
    obtain ⟨h1, h2, h3⟩ := ih (fun x hx => h x (List.mem_cons_of_mem _ hx))
    have hk := h c (List.mem_cons_self _ _)
    refine ⟨?_, ?_, ?_⟩
    · intro t ht
      rcases List.mem_cons.mp ht with rfl | ht
      · exact charToken_classified c hk hd
      · exact h1 t ht
    · simp only [countType] at h2 ⊢
      rw [List.countP_cons, h2, List.count_cons]
      congr 1
      unfold knownChar at hk
      simp only [hd, Bool.false_or, Bool.or_eq_true, beq_iff_eq] at hk
      rcases hk with ((((((h | h) | h) | h) | h) | h) | h) | h <;> subst h <;> decide
    · simp only [countType] at h3 ⊢
      rw [List.countP_cons, h3, List.count_cons]
      congr 1
      unfold knownChar at hk
      simp only [hd, Bool.false_or, Bool.or_eq_true, beq_iff_eq] at hk
      rcases hk with ((((((h | h) | h) | h) | h) | h) | h) | h <;> subst h <;> decide

/-! ## Unclosed left parentheses -/

theorem drainStack_leftParen (stack queue : List Token)
    (h : 0 < countType .LeftParen stack) :
    drainStack queue stack = .error .mismatchedParentheses := by
  induction stack generalizing queue with
  | nil => simp [countType] at h
  | cons t st ih =>
    unfold drainStack
    by_cases ht : t.type = .LeftParen
    · simp [ht]
    · simp only [ht, if_false]
      apply ih
      simpa [countType, List.countP_cons, ht] using h

theorem popsBefore_precedence (o1 o2 : Token) (h : popsBefore o1 o2 = true) :
    o1.precedence ≤ o2.precedence := by
  unfold popsBefore at h
  simp only [Bool.or_eq_true, Bool.and_eq_true, decide_eq_true_eq] at h
  rcases h with h | h
  · exact h.2
  · exact le_of_lt h.2

theorem popOperators_countLeftParen (o1 : Token) (h1 : 2 ≤ o1.precedence)
    (stack queue : List Token) (hst : ∀ t ∈ stack, t.Classified) :
    countType .LeftParen (popOperators o1 queue stack).2 = countType .LeftParen stack ∧
      ∀ t ∈ (popOperators o1 queue stack).2, t.Classified := by
  induction stack generalizing queue with
  | nil => simp [popOperators, countType]
  | cons o2 st ih =>
    unfold popOperators
    by_cases hp : popsBefore o1 o2 = true
    · simp only [hp, if_true]
      have hle := popsBefore_precedence o1 o2 hp
      have h2 : o2.type ≠ .LeftParen := by
        intro h
        have := (hst o2 (List.mem_cons_self _ _)).2.1 (by rw [h]; decide)
        omega
      obtain ⟨ih1, ih2⟩ := ih (queue ++ [o2]) (fun t ht => hst t (List.mem_cons_of_mem _ ht))
      refine ⟨?_, ih2⟩
      rw [ih1]
      simp [countType, List.countP_cons, h2]
    · simp only [hp]
      exact ⟨rfl, hst⟩

/-- One step of the conversion either ends the run (undefined operation or
`RightParen error`) or keeps the stack classified and removes at most one
`LeftParen` from it, and only at a `RightParen` token. -/
theorem syStep_leftParen (st : SYState) (token : Token) (ht : token.Classified)
    (hst : ∀ t ∈ st.stack, t.Classified) :
    (syStep st token = .error .undefinedBehaviour ∨
      syStep st token = .error (.rightParenError token.str)) ∨
    ∃ st2, syStep st token = .ok st2 ∧ (∀ t ∈ st2.stack, t.Classified) ∧
      countType .LeftParen st.stack + countType .LeftParen [token] ≤
        countType .LeftParen st2.stack + countType .RightParen [token] := by
  obtain ⟨hty, hprec, hop⟩ := ht
  unfold syStep
  cases htype : token.type with
  | Unknown => exact absurd htype hty
  | Number =>
    right
    simp only
    cases st.queue.getLast? with
    | none => exact ⟨_, rfl, hst, by simp [countType, htype]⟩
    | some back =>
      simp only
      split_ifs
      · exact ⟨_, rfl, hst, by simp [countType, htype]⟩
      · exact ⟨_, rfl, hst, by simp [countType, htype]⟩
  | Dot =>
    simp only
    cases st.queue with
    | nil => left; left; rfl
    | cons a q => right; exact ⟨_, rfl, hst, by simp [countType, htype]⟩
  | Operator =>
    right
    obtain ⟨h1, h2⟩ := popOperators_countLeftParen token (hop htype) st.stack st.queue hst
    refine ⟨_, rfl, ?_, ?_⟩
    · intro t hmem
      rcases List.mem_cons.mp hmem with rfl | hmem
      · exact ⟨hty, hprec, hop⟩
      · exact h2 t hmem
    · simp only [countType, List.countP_cons, htype] at h1 ⊢
      simp [h1]
  | LeftParen =>
    right
    refine ⟨_, rfl, ?_, ?_⟩
    · intro t hmem
      rcases List.mem_cons.mp hmem with rfl | hmem
      · exact ⟨hty, hprec, hop⟩
      · exact hst t hmem
    · simp [countType, List.countP_cons, htype]
  | RightParen =>
    simp only
    cases hs : st.stack with
    | nil => left; right; rfl
    | cons tos rest =>
      rw [hs] at hst
      simp only
      by_cases htos : tos.type = .LeftParen
      · right
        simp only [htos, ne_eq, not_true_eq_false, if_false]
        refine ⟨_, rfl, fun t hmem => hst t (List.mem_cons_of_mem _ hmem), ?_⟩
        simp [countType, List.countP_cons, htype, htos]
      · simp only [ne_eq, htos, not_false_eq_true, if_true]
        cases rest with
        | nil => left; left; rfl
        | cons x rest2 =>
          right
          refine ⟨_, rfl, fun t hmem =>
            hst t (List.mem_cons_of_mem _ (List.mem_cons_of_mem _ hmem)), ?_⟩
          simp only [countType, List.countP_cons, htype, htos]
          by_cases hx : x.type = .LeftParen <;> simp [hx]

theorem syFrom_unclosed (tokens : List Token) : ∀ (st : SYState),
    (∀ t ∈ tokens, t.Classified) → (∀ t ∈ st.stack, t.Classified) →
    countType .RightParen tokens <
      countType .LeftParen st.stack + countType .LeftParen tokens →
    ∃ e, syFrom st tokens = .error e ∧
      (e = .undefinedBehaviour ∨ e.isParenMismatch = true) := by
  induction tokens with
  | nil =>
    intro st _ _ h
    refine ⟨.mismatchedParentheses, ?_, Or.inr rfl⟩
    simp only [syFrom, syLoop]
    exact drainStack_leftParen _ _ (by simpa [countType] using h)
  | cons token tokens ih =>
    intro st htoks hst h
    have hstep := syStep_leftParen st token (htoks token (List.mem_cons_self _ _)) hst
    rcases hstep with (he | he) | ⟨st2, he, hc2, hcount⟩
    · exact ⟨.undefinedBehaviour, by simp [syFrom, syLoop, he], Or.inl rfl⟩
    · exact ⟨.rightParenError token.str, by simp [syFrom, syLoop, he], Or.inr rfl⟩
    · have hrec := ih st2 (fun t ht => htoks t (List.mem_cons_of_mem _ ht)) hc2 (by
        simp only [countType, List.countP_cons, List.countP_nil] at h hcount ⊢
        omega)
      obtain ⟨e, h1, h2⟩ := hrec
      refine ⟨e, ?_, h2⟩
      simp only [syFrom, syLoop, he] at h1 ⊢
      exact h1

/-- C4 as amended: for every string of digits, dots, operators and
parentheses with more `(` than `)`, `ShuntingYard` never returns a postfix
sequence; unless the run executes an undefined operation on an empty
container, it ends with `RightParen error` or `Mismatched parentheses error`. -/
theorem unclosed_paren_fails (s : List Char) (hk : ∀ c ∈ s, knownChar c = true)
    (hc : s.count ')' < s.count '(')
    (hu : ShuntingYard (ExprToTokens s) ≠ .error .undefinedBehaviour) :
    ∃ e, ShuntingYard (ExprToTokens s) = .error e ∧ e.isParenMismatch = true := by
  obtain ⟨h1, h2, h3⟩ := ExprToTokens_known s hk
  obtain ⟨e, he, hcase⟩ := syFrom_unclosed (ExprToTokens s)
    { queue := [], stack := [], gotOperator := false } h1 (by simp) (by
      rw [h2, h3]; simpa [countType] using hc)
  rcases hcase with hcase | hcase
  · subst hcase
    exact absurd he hu
  · exact ⟨e, he, hcase⟩

/-- C4 as amended, at `"(1+2"`: the run ends with `Mismatched parentheses error`. -/
theorem unclosed_paren_fails_witness :
    ("(1+2".toList.all knownChar = true ∧
      "(1+2".toList.count ')' < "(1+2".toList.count '(' ∧
      ShuntingYard (ExprToTokens "(1+2".toList) ≠ .error .undefinedBehaviour) ∧
    ∃ e, ShuntingYard (ExprToTokens "(1+2".toList) = .error e ∧ e.isParenMismatch = true :=
  ⟨⟨by decide, by decide, by decide⟩,
    unclosed_paren_fails "(1+2".toList (by decide) (by decide) (by decide)⟩

/-- C4 as stated fails at `".("`: the string has one `(` and no `)`, and the
`Dot` case runs `queue.back()` on the empty queue, so the run does not end
with a parenthesis error. -/
theorem unclosed_paren_counterexample :
    ".(".toList.all knownChar = true ∧
    ".(".toList.count ')' < ".(".toList.count '(' ∧
    ShuntingYard (ExprToTokens ".(".toList) = .error .undefinedBehaviour ∧
    ¬ ∃ e, ShuntingYard (ExprToTokens ".(".toList) = .error e ∧ e.isParenMismatch = true := by
  have h : ShuntingYard (ExprToTokens ".(".toList) = .error .undefinedBehaviour := by decide
  refine ⟨by decide, by decide, h, ?_⟩
  rintro ⟨e, he, hp⟩
  rw [h] at he
  cases he
  exact absurd hp (by decide)

/-! ## Unknown characters -/

theorem ExprToTokens_append_nondigit (c : Char) (post : List Char) (h0 : c ≠ Char.ofNat 0)
    (hd : isdigit c = false) (pre : List Char) :
    Char.ofNat 0 ∉ pre →
      ExprToTokens (pre ++ c :: post) = ExprToTokens pre ++ charToken c :: ExprToTokens post := by
  refine ExprToTokens_induction
    (fun s toks => Char.ofNat 0 ∉ s →
      ExprToTokens (s ++ c :: post) = toks ++ charToken c :: ExprToTokens post) ?_ ?_ ?_ ?_ pre
  · intro _
    simpa using ExprToTokens_nondigit c post h0 hd
  · intro cs h
    exact absurd (List.mem_cons_self _ _) h
  · intro d r hrun hr ih h
    have hhead : ∀ x ∈ (r ++ c :: post).head?, isdigit x = false := by
      cases r with
      | nil => simpa using hd
      | cons y ys => simpa using hr
    rw [List.append_assoc, ExprToTokens_digits d _ hrun hhead,
      ih (fun hm => h (List.mem_append_right _ hm))]
    rfl
  · intro x xs hx0 hxd ih h
    rw [List.cons_append, ExprToTokens_nondigit x _ hx0 hxd,
      ih (fun hm => h (List.mem_cons_of_mem _ hm))]
    rfl

/-- The three ways a step of the conversion ends the run. -/
theorem syStep_error (st : SYState) (token : Token) (e : Failure)
    (h : syStep st token = .error e) :
    e = .undefinedBehaviour ∨ e = .rightParenError token.str ∨
      (token.type = .Unknown ∧ e = .tokenError token.str) := by
  unfold syStep at h
  cases htype : token.type <;> rw [htype] at h <;> simp only at h
  · right; right; exact ⟨rfl, by cases h; rfl⟩
  · cases hq : st.queue.getLast? <;> rw [hq] at h <;> simp only at h
    · cases h
    · split_ifs at h
  · cases h
  · cases h
  · cases hs : st.stack with
    | nil => rw [hs] at h; cases h; right; left; rfl
    | cons tos rest =>
      rw [hs] at h
      simp only at h
      split_ifs at h
      cases rest with
      | nil => cases h; left; rfl
      | cons x r => cases h
  · cases hq : st.queue with
    | nil => rw [hq] at h; cases h; left; rfl
    | cons a q => rw [hq] at h; cases h

theorem syLoop_error_append (tokens rest : List Token) : ∀ (st : SYState) (e : Failure),
    syLoop st tokens = .error e → syLoop st (tokens ++ rest) = .error e := by
  induction tokens with
  | nil => intro st e h; cases h
  | cons t ts ih =>
    intro st e h
    simp only [List.cons_append, syLoop] at h ⊢
    cases hstep : syStep st t with
    | error e2 => rw [hstep] at h; exact h
    | ok st2 => rw [hstep] at h; exact ih st2 e h

/-- The loop of the conversion never gets past an `Unknown` token. -/
theorem syLoop_unknown (u : Token) (hu : u.type = .Unknown) (tokens : List Token) :
    ∀ st : SYState, (∀ t ∈ tokens, t.type ≠ .Unknown) →
    ∃ e, syLoop st (tokens ++ [u]) = .error e ∧
      (e = .undefinedBehaviour ∨ (∃ str, e = .rightParenError str) ∨ e = .tokenError u.str) := by
  induction tokens with
  | nil =>
    intro st _
    refine ⟨.tokenError u.str, ?_, Or.inr (Or.inr rfl)⟩
    simp [syLoop, syStep, hu]
  | cons t ts ih =>
    intro st hts
    simp only [List.cons_append, syLoop]
    cases hstep : syStep st t with
    | error e =>
      refine ⟨e, rfl, ?_⟩
      rcases syStep_error st t e hstep with h | h | h
      · exact Or.inl h
      · exact Or.inr (Or.inl ⟨_, h⟩)
      · exact absurd h.1 (hts t (List.mem_cons_self _ _))
    | ok st2 => exact ih st2 (fun x hx => hts x (List.mem_cons_of_mem _ hx))

/-- C6 as amended: when the normalized input is `pre ++ c :: post` with `pre`
made of classified characters and `c` an unclassified character other than
NUL, the tokenizer emits an `Unknown` token for `c` and the conversion loop
ends the run no later than at that token: unless it executes an undefined
operation on an empty container first, it exits with `RightParen error` or
with the `error` message for `c`; `calculator` ends the same way and prints
no result. -/
theorem unknown_char_fails {α : Type} (A : Arith α) (s pre post : List Char) (c : Char)
    (hs : FormatString s = pre ++ c :: post)
    (hpre : ∀ x ∈ pre, knownChar x = true) (hc : knownChar c = false)
    (h0 : c ≠ Char.ofNat 0) :
    ExprToTokens (FormatString s) = ExprToTokens pre ++ charToken c :: ExprToTokens post ∧
    (charToken c).type = .Unknown ∧
    ∃ e, syLoop { queue := [], stack := [], gotOperator := false }
          (ExprToTokens pre ++ [charToken c]) = .error e ∧
      ShuntingYard (ExprToTokens (FormatString s)) = .error e ∧
      calculator A s = .error e ∧
      (e = .undefinedBehaviour ∨ (∃ str, e = .rightParenError str) ∨ e = .tokenError [c]) := by
  have hd : isdigit c = false := by
    unfold knownChar at hc
    simp only [Bool.or_eq_false_iff] at hc
    exact hc.1.1.1.1.1.1.1.1
  have hnul : Char.ofNat 0 ∉ pre := fun hm => knownChar_ne_nul _ (hpre _ hm) rfl
  have htok := ExprToTokens_append_nondigit c post h0 hd pre hnul
  have hty : (charToken c).type = .Unknown := by rw [charToken_unknown c hc]
  have hstr : (charToken c).str = [c] := by rw [charToken_unknown c hc]
  obtain ⟨e, he, hcase⟩ := syLoop_unknown (charToken c) hty (ExprToTokens pre)
    { queue := [], stack := [], gotOperator := false }
    (fun t ht => ((ExprToTokens_known pre hpre).1 t ht).1)
  rw [hstr] at hcase
  have hsy : ShuntingYard (ExprToTokens (FormatString s)) = .error e := by
    have h2 := syLoop_error_append _ (ExprToTokens post) _ e he
    rw [List.append_assoc, List.singleton_append] at h2
    rw [hs, htok]
    simp only [ShuntingYard, syFrom, h2]
  refine ⟨by rw [hs, htok], hty, e, he, hsy, ?_, hcase⟩
  unfold calculator
  rw [hsy]

/-- C6 as amended, at the test input `"1.1 + 2.1 + abc"`: the run ends with the
`error` message for `a`. -/
theorem unknown_char_fails_witness :
    (FormatString "1.1 + 2.1 + abc".toList = "1.1+2.1+".toList ++ 'a' :: "bc".toList ∧
      "1.1+2.1+".toList.all knownChar = true ∧ knownChar 'a' = false ∧
      'a' ≠ Char.ofNat 0) ∧
    (ExprToTokens (FormatString "1.1 + 2.1 + abc".toList) =
        ExprToTokens "1.1+2.1+".toList ++ charToken 'a' :: ExprToTokens "bc".toList ∧
      (charToken 'a').type = .Unknown ∧
      ∃ e, syLoop { queue := [], stack := [], gotOperator := false }
            (ExprToTokens "1.1+2.1+".toList ++ [charToken 'a']) = .error e ∧
        ShuntingYard (ExprToTokens (FormatString "1.1 + 2.1 + abc".toList)) = .error e ∧
        calculator exactArith "1.1 + 2.1 + abc".toList = .error e ∧
        (e = .undefinedBehaviour ∨ (∃ str, e = .rightParenError str) ∨ e = .tokenError ['a'])) :=
  ⟨⟨by decide, by decide, by decide, by decide⟩,
    unknown_char_fails exactArith "1.1 + 2.1 + abc".toList "1.1+2.1+".toList "bc".toList 'a'
      (by decide) (by decide) (by decide) (by decide)⟩

/-- C6 as stated fails on the two-character string `'1'`, NUL: NUL is not a
classified character, the scan of `ExprToTokens` stops at it, no `Unknown`
token is emitted and `calculator` prints the result `1`. It also fails at
`".a"`, where the `Dot` case runs `queue.back()` on the empty queue before
the token of `a` is reached. -/
theorem unknown_char_counterexample :
    (∃ c ∈ FormatString ['1', Char.ofNat 0], knownChar c = false) ∧
    ExprToTokens (FormatString ['1', Char.ofNat 0]) = [Token.mk2 .Number ['1']] ∧
    ShuntingYard (ExprToTokens (FormatString ['1', Char.ofNat 0])) =
      .ok [Token.mk2 .Number ['1']] ∧
    calculator exactArith ['1', Char.ofNat 0] = .ok (some 1) ∧
    ShuntingYard (ExprToTokens (FormatString ".a".toList)) = .error .undefinedBehaviour := by
  have hq : ShuntingYard (ExprToTokens (FormatString ['1', Char.ofNat 0])) =
      .ok [Token.mk2 .Number ['1']] := by decide
  refine ⟨⟨Char.ofNat 0, by decide, by decide⟩, by decide, hq, ?_, by decide⟩
  unfold calculator
  rw [hq]
  simp [evalLoop, evalStep, Token.mk2, resultOf, exactArith, exactStof, takeDigits,
    isdigit, decimalValue, digitValue]

/-! ## Parenthesis-free expressions -/

theorem charToken_binOp (o : BinOp) :
    charToken o.char =
      { type := .Operator, str := [o.char], precedence := (o.level : Int) + 1,
        rightAssociative := o.rightToLeft } := by
  cases o <;> decide

theorem popsBefore_binOp (o p : BinOp) :
    popsBefore (charToken o.char) (charToken p.char) =
      if o.rightToLeft then decide (o.level < p.level) else decide (o.level ≤ p.level) := by
  cases o <;> cases p <;> decide

theorem Tree.postorder_eq (t : Tree) :
    t.postorder = t.emitted ++ t.pending.map (fun o => charToken o.char) := by
  induction t with
  | num d => simp [Tree.postorder, Tree.emitted, Tree.pending]
  | node o l r _ ihr =>
    simp [Tree.postorder, Tree.emitted, Tree.pending, ihr]

theorem Tree.pending_subset (t : Tree) : ∀ o ∈ t.pending, o ∈ t.ops := by
  induction t with
  | num d => simp [Tree.pending]
  | node o l r _ ihr =>
    intro p hp
    simp only [Tree.pending, List.mem_append, List.mem_singleton] at hp
    simp only [Tree.ops, List.mem_append, List.mem_cons]
    rcases hp with hp | hp
    · exact Or.inr (Or.inr (ihr p hp))
    · exact Or.inr (Or.inl hp)

theorem Tree.leaves_eq (t : Tree) : t.leaves = t.first :: t.rest.map (fun p => p.2) := by
  induction t with
  | num d => simp [Tree.leaves, Tree.first, Tree.rest]
  | node o l r ihl ihr => simp [Tree.leaves, Tree.first, Tree.rest, ihl, ihr]

theorem Tree.root_of_ops (t : Tree) (p : BinOp) (hp : p ∈ t.ops) : ∃ q, t.root? = some q := by
  cases t with
  | num d => simp [Tree.ops] at hp
  | node o l r => exact ⟨o, rfl⟩

/-- In a grouped tree no operator binds less tightly than the root. -/
theorem Tree.Grouped.root_le (t : Tree) (h : t.Grouped) :
    ∀ q ∈ t.root?, ∀ p ∈ t.ops, q.level ≤ p.level := by
  induction t with
  | num d => simp [Tree.root?]
  | node o l r ihl ihr =>
    obtain ⟨hl, hr, hlo, hro⟩ := h
    intro q hq p hp
    simp only [Tree.root?, Option.mem_def, Option.some.injEq] at hq
    subst hq
    simp only [Tree.ops, List.mem_append, List.mem_cons] at hp
    rcases hp with hp | hp | hp
    · obtain ⟨q, hq⟩ := l.root_of_ops p hp
      have h1 := hlo q hq
      have h2 := ihl hl q hq p hp
      split_ifs at h1 <;> omega
    · subst hp; exact le_refl _
    · obtain ⟨q, hq⟩ := r.root_of_ops p hp
      have h1 := hro q hq
      have h2 := ihr hr q hq p hp
      split_ifs at h1 <;> omega

theorem Tree.Grouped.left_ops (o : BinOp) (l r : Tree) (h : (Tree.node o l r).Grouped) :
    ∀ p ∈ l.ops, popsBefore (charToken o.char) (charToken p.char) = true := by
  obtain ⟨hl, _, hlo, _⟩ := h
  intro p hp
  obtain ⟨q, hq⟩ := l.root_of_ops p hp
  have h1 := hlo q hq
  have h2 := Tree.Grouped.root_le l hl q hq p hp
  rw [popsBefore_binOp]
  split_ifs at h1 ⊢ <;> simp <;> omega

theorem Tree.Grouped.right_ops (o : BinOp) (l r : Tree) (h : (Tree.node o l r).Grouped) :
    ∀ p ∈ r.ops, popsBefore (charToken p.char) (charToken o.char) = false := by
  obtain ⟨_, hr, _, hro⟩ := h
  intro p hp
  obtain ⟨q, hq⟩ := r.root_of_ops p hp
  have h1 := hro q hq
  have h2 := Tree.Grouped.root_le r hr q hq p hp
  rw [popsBefore_binOp]
  revert h1 h2
  cases o <;> cases p <;> cases q <;> decide

theorem syLoop_append (xs ys : List Token) : ∀ (st st2 : SYState),
    syLoop st xs = .ok st2 → syLoop st (xs ++ ys) = syLoop st2 ys := by
  induction xs with
  | nil => intro st st2 h; cases h; rfl
  | cons x xs ih =>
    intro st st2 h
    simp only [List.cons_append, syLoop] at h ⊢
    cases hstep : syStep st x with
    | error e => rw [hstep] at h; cases h
    | ok st3 => rw [hstep] at h; exact ih st3 st2 h

theorem popOperators_append (o : Token) (pend st : List Token) :
    ∀ queue : List Token,
    (∀ p ∈ pend, popsBefore o p = true) → (∀ top ∈ st.head?, popsBefore o top = false) →
    popOperators o queue (pend ++ st) = (queue ++ pend, st) := by
  induction pend with
  | nil =>
    intro queue _ h2
    cases st with
    | nil => simp [popOperators]
    | cons top st =>
      have := h2 top (by simp)
      simp [popOperators, this]
  | cons p pend ih =>
    intro queue h1 h2
    have hp := h1 p (List.mem_cons_self _ _)
    have hrec := ih (queue ++ [p]) (fun x hx => h1 x (List.mem_cons_of_mem _ hx)) h2
    simp [popOperators, hp, hrec]

/-- No text of the queue contains a dot. -/
theorem syStep_number_noDot (q st : List Token) (g : Bool) (d : List Char)
    (hq : ∀ x ∈ q, '.' ∉ x.str) :
    ∃ g2, syStep { queue := q, stack := st, gotOperator := g } (Token.mk2 .Number d) =
      .ok { queue := q ++ [Token.mk2 .Number d], stack := st, gotOperator := g2 } := by
  unfold syStep
  simp only [Token.mk2]
  cases hl : q.getLast? with
  | none => exact ⟨g, rfl⟩
  | some back =>
    have hb : '.' ∉ back.str := hq back (List.mem_of_getLast?_eq_some hl)
    have hc : back.str.contains '.' = false := by
      simpa using hb
    simp only [hc, Bool.false_and]
    exact ⟨false, rfl⟩

theorem Tree.postorder_noDot (t : Tree) (hv : ∀ d ∈ t.leaves, DigitRun d) :
    ∀ x ∈ t.postorder, '.' ∉ x.str := by
  induction t with
  | num d =>
    intro x hx
    simp only [Tree.postorder, List.mem_singleton] at hx
    subst hx
    intro hm
    exact absurd ((hv d (by simp [Tree.leaves])).2 _ hm) (by decide)
  | node o l r ihl ihr =>
    intro x hx
    simp only [Tree.postorder, List.mem_append, List.mem_singleton] at hx
    simp only [Tree.leaves, List.mem_append] at hv
    rcases hx with (hx | hx) | hx
    · exact ihl (fun d hd => hv d (Or.inl hd)) x hx
    · exact ihr (fun d hd => hv d (Or.inr hd)) x hx
    · subst hx
      cases o <;> decide

theorem Tree.emitted_noDot (t : Tree) (hv : ∀ d ∈ t.leaves, DigitRun d) :
    ∀ x ∈ t.emitted, '.' ∉ x.str := by
  intro x hx
  apply t.postorder_noDot hv x
  rw [t.postorder_eq]
  exact List.mem_append_left _ hx

/-- The loop of the conversion on the in-order tokens of a grouped tree: the
queue receives `emitted`, the operators of the right edge stay on the stack. -/
theorem syLoop_tree (t : Tree) : ∀ (q st : List Token) (g : Bool),
    t.Grouped → (∀ d ∈ t.leaves, DigitRun d) → (∀ x ∈ q, '.' ∉ x.str) →
    (∀ p ∈ t.ops, ∀ top ∈ st.head?, popsBefore (charToken p.char) top = false) →
    ∃ g2, syLoop { queue := q, stack := st, gotOperator := g } t.tokens =
      .ok { queue := q ++ t.emitted,
            stack := t.pending.map (fun o => charToken o.char) ++ st,
            gotOperator := g2 } := by
  induction t with
  | num d =>
    intro q st g _ _ hq _
    obtain ⟨g2, h⟩ := syStep_number_noDot q st g d hq
    exact ⟨g2, by simp [Tree.tokens, Tree.emitted, Tree.pending, syLoop, h]⟩
  | node o l r ihl ihr =>
    intro q st g hg hv hq htop
    have hgl := hg.1
    have hgr := hg.2.1
    simp only [Tree.leaves, List.mem_append] at hv
    simp only [Tree.ops, List.mem_append, List.mem_cons] at htop
    obtain ⟨g1, h1⟩ := ihl q st g hgl (fun d hd => hv d (Or.inl hd)) hq
      (fun p hp => htop p (Or.inl hp))
    have hpop := popOperators_append (charToken o.char)
      (l.pending.map (fun o => charToken o.char)) st (q ++ l.emitted)
      (by
        intro p hp
        obtain ⟨p2, hp2, rfl⟩ := List.mem_map.mp hp
        exact Tree.Grouped.left_ops o l r hg p2 (l.pending_subset p2 hp2))
      (htop o (Or.inr (Or.inl rfl)))
    have hstep :
        syStep
          { queue := q ++ l.emitted
            stack := l.pending.map (fun o => charToken o.char) ++ st
            gotOperator := g1 }
          (charToken o.char) =
        .ok { queue := q ++ l.postorder
              stack := charToken o.char :: st
              gotOperator := true } := by
      have hty : (charToken o.char).type = .Operator := by rw [charToken_binOp]
      unfold syStep
      rw [hty]
      simp only [hpop, l.postorder_eq, List.append_assoc]
    have hq2 : ∀ x ∈ q ++ l.postorder, '.' ∉ x.str := by
      intro x hx
      rcases List.mem_append.mp hx with hx | hx
      · exact hq x hx
      · exact l.postorder_noDot (fun d hd => hv d (Or.inl hd)) x hx
    obtain ⟨g3, h3⟩ := ihr (q ++ l.postorder) (charToken o.char :: st) true hgr
      (fun d hd => hv d (Or.inr hd)) hq2
      (by
        intro p hp top htopmem
        simp only [List.head?_cons, Option.mem_def, Option.some.injEq] at htopmem
        subst htopmem
        exact Tree.Grouped.right_ops o l r hg p hp)
    refine ⟨g3, ?_⟩
    simp only [Tree.tokens]
    rw [syLoop_append _ _ _ _ h1]
    simp only [syLoop, hstep, h3, Tree.emitted, Tree.pending, List.map_append, List.map_cons,
      List.map_nil, List.append_assoc, List.singleton_append]

theorem drainStack_operators (ops : List BinOp) : ∀ queue : List Token,
    drainStack queue (ops.map (fun o => charToken o.char)) =
      .ok (queue ++ ops.map (fun o => charToken o.char)) := by
  induction ops with
  | nil => intro queue; simp [drainStack]
  | cons o ops ih =>
    intro queue
    have hty : (charToken o.char).type ≠ .LeftParen := by rw [charToken_binOp]; simp
    simp only [List.map_cons, drainStack, hty, if_false]
    rw [ih]
    simp

/-- The conversion of the in-order tokens of a grouped tree is its
post-order listing. -/
theorem ShuntingYard_tree (t : Tree) (hg : t.Grouped) (hv : ∀ d ∈ t.leaves, DigitRun d) :
    ShuntingYard t.tokens = .ok t.postorder := by
  obtain ⟨g2, h⟩ := syLoop_tree t [] [] false hg hv (by simp) (by simp)
  simp only [ShuntingYard, syFrom, h, List.nil_append, List.append_nil]
  rw [drainStack_operators, ← t.postorder_eq]

theorem flatText_append (xs ys : List (BinOp × List Char)) (o : BinOp) (n : List Char) :
    ∀ n0 : List Char,
    flatText n0 (xs ++ (o, n) :: ys) = flatText n0 xs ++ o.char :: flatText n ys := by
  induction xs with
  | nil => intro n0; simp [flatText]
  | cons x xs ih =>
    intro n0
    obtain ⟨p, m⟩ := x
    simp [flatText, ih m]

theorem BinOp.char_nondigit (o : BinOp) : isdigit o.char = false ∧ o.char ≠ Char.ofNat 0 := by
  cases o <;> decide

/-- The tokens of the text of a tree are its in-order tokens. -/
theorem ExprToTokens_tree (t : Tree) : ∀ tail : List Char,
    (∀ d ∈ t.leaves, DigitRun d) → (∀ c ∈ tail.head?, isdigit c = false) →
    ExprToTokens (flatText t.first t.rest ++ tail) = t.tokens ++ ExprToTokens tail := by
  induction t with
  | num d =>
    intro tail hv ht
    simp only [Tree.first, Tree.rest, flatText, Tree.tokens, List.singleton_append]
    exact ExprToTokens_digits d tail (hv d (by simp [Tree.leaves])) ht
  | node o l r ihl ihr =>
    intro tail hv ht
    simp only [Tree.leaves, List.mem_append] at hv
    simp only [Tree.first, Tree.rest, Tree.tokens]
    rw [flatText_append, List.append_assoc, List.cons_append,
      ihl _ (fun d hd => hv d (Or.inl hd)) (by simpa using o.char_nondigit.1),
      ExprToTokens_nondigit _ _ o.char_nondigit.2 o.char_nondigit.1,
      ihr tail (fun d hd => hv d (Or.inr hd)) ht]
    simp

theorem Tree.extend_first (t : Tree) (o : BinOp) (n : List Char) :
    (t.extend o n).first = t.first := by
  induction t with
  | num d => rfl
  | node p l r _ _ =>
    unfold Tree.extend
    split_ifs <;> rfl

theorem Tree.extend_rest (t : Tree) (o : BinOp) (n : List Char) :
    (t.extend o n).rest = t.rest ++ [(o, n)] := by
  induction t with
  | num d => rfl
  | node p l r _ ihr =>
    unfold Tree.extend
    split_ifs
    · simp [Tree.rest, ihr, Tree.extend_first]
    · simp [Tree.rest, Tree.first]

theorem Tree.extend_root (t : Tree) (o : BinOp) (n : List Char) :
    ∀ q ∈ (t.extend o n).root?, q = o ∨ q ∈ t.root? := by
  cases t with
  | num d => intro q hq; left; simpa [Tree.extend, Tree.root?, eq_comm] using hq
  | node p l r =>
    intro q hq
    unfold Tree.extend at hq
    split_ifs at hq
    · right; simpa [Tree.root?] using hq
    · left; simpa [Tree.root?, eq_comm] using hq

theorem Tree.extend_grouped (t : Tree) (o : BinOp) (n : List Char) (h : t.Grouped) :
    (t.extend o n).Grouped := by
  induction t with
  | num d => simp [Tree.extend, Tree.Grouped, Tree.root?]
  | node p l r _ ihr =>
    obtain ⟨hl, hr, hlo, hro⟩ := h
    unfold Tree.extend
    split_ifs with hc
    · refine ⟨hl, ihr hr, hlo, ?_⟩
      intro q hq
      rcases Tree.extend_root r o n q hq with rfl | hq2
      · revert hc
        cases p <;> cases q <;> decide
      · exact hro q hq2
    · refine ⟨⟨hl, hr, hlo, hro⟩, trivial, ?_, by simp [Tree.root?]⟩
      intro q hq
      simp only [Tree.root?, Option.mem_def, Option.some.injEq] at hq
      subst hq
      revert hc
      cases p <;> cases o <;> decide

theorem parseFlat_spec (rest : List (BinOp × List Char)) : ∀ t : Tree, t.Grouped →
    (rest.foldl (fun t p => t.extend p.1 p.2) t).Grouped ∧
    (rest.foldl (fun t p => t.extend p.1 p.2) t).first = t.first ∧
    (rest.foldl (fun t p => t.extend p.1 p.2) t).rest = t.rest ++ rest := by
  induction rest with
  | nil => intro t h; simp [h]
  | cons x xs ih =>
    intro t h
    obtain ⟨h1, h2, h3⟩ := ih (t.extend x.1 x.2) (Tree.extend_grouped t x.1 x.2 h)
    refine ⟨h1, ?_, ?_⟩
    · rw [List.foldl_cons, h2, Tree.extend_first]
    · rw [List.foldl_cons, h3, Tree.extend_rest]
      simp

/-- C1: for every parenthesis-free expression `n0 op1 n1 ... opk nk` of
non-empty digit runs and operators, there is a tree grouped by the precedence
rules whose in-order listing is the expression, and for every such tree the
conversion of the tokens of the expression succeeds with the post-order
listing of the tree. `"2^3^2"` gives `2 3 2 ^ ^` and `"20-30/3+4*2^3"` gives
`20 30 3 / - 4 2 3 ^ * +`. -/
theorem ShuntingYard_flat (n0 : List Char) (rest : List (BinOp × List Char))
    (h0 : DigitRun n0) (hr : ∀ p ∈ rest, DigitRun p.2) :
    ((parseFlat n0 rest).Grouped ∧ (parseFlat n0 rest).first = n0 ∧
      (parseFlat n0 rest).rest = rest) ∧
    (∀ t : Tree, t.Grouped → t.first = n0 → t.rest = rest →
      ShuntingYard (ExprToTokens (flatText n0 rest)) = .ok t.postorder) ∧
    ShuntingYard (ExprToTokens "2^3^2".toList) =
      .ok [Token.mk2 .Number ['2'], Token.mk2 .Number ['3'], Token.mk2 .Number ['2'],
        charToken '^', charToken '^'] ∧
    ShuntingYard (ExprToTokens "20-30/3+4*2^3".toList) =
      .ok [Token.mk2 .Number ['2', '0'], Token.mk2 .Number ['3', '0'], Token.mk2 .Number ['3'],
        charToken '/', charToken '-', Token.mk2 .Number ['4'], Token.mk2 .Number ['2'],
        Token.mk2 .Number ['3'], charToken '^', charToken '*', charToken '+'] := by
  refine ⟨?_, ?_, by decide, by decide⟩
  · have h := parseFlat_spec rest (.num n0) trivial
    simpa [parseFlat, Tree.first, Tree.rest] using h
  · intro t hg hf hrest
    have hv : ∀ d ∈ t.leaves, DigitRun d := by
      intro d hd
      rw [t.leaves_eq, hf, hrest] at hd
      rcases List.mem_cons.mp hd with rfl | hd
      · exact h0
      · obtain ⟨p, hp, rfl⟩ := List.mem_map.mp hd
        exact hr p hp
    have htok := ExprToTokens_tree t [] hv (by simp)
    rw [List.append_nil, ExprToTokens_nil, List.append_nil, hf, hrest] at htok
    rw [htok]
    exact ShuntingYard_tree t hg hv

/-- C1 at `"2^3^2"`: the grouped tree is `2^(3^2)` and the conversion returns
its post-order listing `2 3 2 ^ ^`. -/
theorem ShuntingYard_flat_witness :
    (DigitRun ['2'] ∧ DigitRun ['3'] ∧ DigitRun ['2']) ∧
    parseFlat ['2'] [(.pow, ['3']), (.pow, ['2'])] =
      .node .pow (.num ['2']) (.node .pow (.num ['3']) (.num ['2'])) ∧
    flatText ['2'] [(.pow, ['3']), (.pow, ['2'])] = "2^3^2".toList ∧
    ShuntingYard (ExprToTokens (flatText ['2'] [(.pow, ['3']), (.pow, ['2'])])) =
      .ok (Tree.node .pow (.num ['2']) (.node .pow (.num ['3']) (.num ['2']))).postorder :=
  ⟨⟨by decide, by decide, by decide⟩, by decide, by decide,
    (ShuntingYard_flat ['2'] [(.pow, ['3']), (.pow, ['2'])] (by decide) (by decide)).2.1
      (.node .pow (.num ['2']) (.node .pow (.num ['3']) (.num ['2'])))
      (by simp [Tree.Grouped, Tree.root?, BinOp.rightToLeft, BinOp.level]) rfl rfl⟩

/-! ## Claims on the tokenizer -/

theorem charToken_eq_specToken (c : Char) : charToken c = specToken c := by
  unfold charToken specToken specType specPrecedence opChar
  by_cases h1 : c = '.'
  · subst h1; decide
  by_cases h2 : c = '('
  · subst h2; decide
  by_cases h3 : c = ')'
  · subst h3; decide
  by_cases h4 : c = '^'
  · subst h4; decide
  by_cases h5 : c = '*'
  · subst h5; decide
  by_cases h6 : c = '/'
  · subst h6; decide
  by_cases h7 : c = '+'
  · subst h7; decide
  by_cases h8 : c = '-'
  · subst h8; decide
  simp [h1, h2, h3, h4, h5, h6, h7, h8]

theorem untilNul_nul (cs : List Char) : untilNul (Char.ofNat 0 :: cs) = [] := by
  simp [untilNul]

theorem untilNul_cons (c : Char) (cs : List Char) (h : c ≠ Char.ofNat 0) :
    untilNul (c :: cs) = c :: untilNul cs := by
  simp [untilNul, List.takeWhile_cons, h]

theorem untilNul_digits (d r : List Char) (hd : ∀ c ∈ d, isdigit c = true) :
    untilNul (d ++ r) = d ++ untilNul r := by
  induction d with
  | nil => rfl
  | cons c cs ih =>
    have hc := isdigit_ne_nul c (hd c (List.mem_cons_self _ _))
    rw [List.cons_append, untilNul_cons _ _ hc,
      ih (fun x hx => hd x (List.mem_cons_of_mem _ hx)), List.cons_append]

theorem untilNul_eq_self (s : List Char) (h : Char.ofNat 0 ∉ s) : untilNul s = s := by
  induction s with
  | nil => rfl
  | cons c cs ih =>
    simp only [List.mem_cons, not_or] at h
    rw [untilNul_cons _ _ (fun e => h.1 e.symm), ih h.2]

theorem untilNul_head (r : List Char) (hr : ∀ c ∈ r.head?, isdigit c = false) :
    ∀ c ∈ (untilNul r).head?, isdigit c = false := by
  cases r with
  | nil => simp [untilNul]
  | cons x xs =>
    by_cases hx : x = Char.ofNat 0
    · subst hx; simp [untilNul_nul]
    · rw [untilNul_cons _ _ hx]
      simpa using hr

theorem charToken_str (c : Char) : (charToken c).str = [c] := by
  rw [charToken_eq_specToken]; rfl

theorem charToken_type_ne_Number (c : Char) : (charToken c).type ≠ .Number := by
  rw [charToken_eq_specToken]
  unfold specToken specType
  simp only
  split_ifs <;> simp

/-- C20: for every string `s` without a NUL character, the texts of the
tokens of `ExprToTokens s`, concatenated in order, are `s`; for every string
the text of each token is non-empty and there are at most `s.length` tokens. -/
theorem tokens_lose_nothing (s : List Char) (h0 : Char.ofNat 0 ∉ s) :
    ((ExprToTokens s).map Token.str).flatten = s ∧
    (∀ t ∈ ExprToTokens s, t.str ≠ []) ∧
    (ExprToTokens s).length ≤ s.length := by
  have key : (Char.ofNat 0 ∉ s → ((ExprToTokens s).map Token.str).flatten = s) ∧
      (∀ t ∈ ExprToTokens s, t.str ≠ []) ∧ (ExprToTokens s).length ≤ s.length := by
    refine ExprToTokens_induction
      (fun s toks => (Char.ofNat 0 ∉ s → (toks.map Token.str).flatten = s) ∧
        (∀ t ∈ toks, t.str ≠ []) ∧ toks.length ≤ s.length) ?_ ?_ ?_ ?_ s
    · simp
    · intro cs
      refine ⟨fun h => absurd (List.mem_cons_self _ _) h, by simp, by simp⟩
    · intro d r hd _ ih
      obtain ⟨h1, h2, h3⟩ := ih
      refine ⟨?_, ?_, ?_⟩
      · intro h
        simp only [List.map_cons, List.flatten_cons, Token.mk2]
        rw [h1 (fun hm => h (List.mem_append_right _ hm))]
      · intro t ht
        rcases List.mem_cons.mp ht with rfl | ht
        · exact hd.1
        · exact h2 t ht
      · have hlen : 0 < d.length := List.length_pos.mpr hd.1
        simp only [List.length_cons, List.length_append]
        omega
    · intro c cs _ _ ih
      obtain ⟨h1, h2, h3⟩ := ih
      refine ⟨?_, ?_, ?_⟩
      · intro h
        simp only [List.map_cons, List.flatten_cons, charToken_str]
        rw [h1 (fun hm => h (List.mem_cons_of_mem _ hm))]
        rfl
      · intro t ht
        rcases List.mem_cons.mp ht with rfl | ht
        · rw [charToken_str]; simp
        · exact h2 t ht
      · simp only [List.length_cons]
        omega
  exact ⟨key.1 h0, key.2.1, key.2.2⟩

/-- C20 at `"1.5+(20)"`: eight characters, six tokens. -/
theorem tokens_lose_nothing_witness :
    Char.ofNat 0 ∉ "1.5+(20)".toList ∧
    (((ExprToTokens "1.5+(20)".toList).map Token.str).flatten = "1.5+(20)".toList ∧
      (∀ t ∈ ExprToTokens "1.5+(20)".toList, t.str ≠ []) ∧
      (ExprToTokens "1.5+(20)".toList).length ≤ "1.5+(20)".toList.length) :=
  ⟨by decide, tokens_lose_nothing "1.5+(20)".toList (by decide)⟩

/-- C11 as amended: `ExprToTokens` is total; the tokens other than numbers
are, in order, the tokens the specification describes (`specToken`: text the
single character, type and precedence by the table) for the non-digit
characters of the input before its first NUL; every token that is not an
Operator has precedence `-1` and is not right-associative. -/
theorem tokenizer_classification (s : List Char) :
    (ExprToTokens s).filter (fun t => t.type != .Number) =
      ((untilNul s).filter (fun c => !isdigit c)).map specToken ∧
    (∀ t ∈ ExprToTokens s, t.type ≠ .Operator →
      t.precedence = -1 ∧ t.rightAssociative = false) := by
  refine ExprToTokens_induction
    (fun s toks => toks.filter (fun t => t.type != .Number) =
        ((untilNul s).filter (fun c => !isdigit c)).map specToken ∧
      (∀ t ∈ toks, t.type ≠ .Operator → t.precedence = -1 ∧ t.rightAssociative = false))
    ?_ ?_ ?_ ?_ s
  · simp [untilNul]
  · intro cs
    simp [untilNul_nul]
  · intro d r hd _ ih
    obtain ⟨h1, h2⟩ := ih
    refine ⟨?_, ?_⟩
    · rw [untilNul_digits d r hd.2, List.filter_append]
      have hf : d.filter (fun c => !isdigit c) = [] := by
        rw [List.filter_eq_nil_iff]
        intro c hc
        simp [hd.2 c hc]
      rw [hf, List.nil_append, ← h1]
      simp [Token.mk2]
    · intro t ht
      rcases List.mem_cons.mp ht with rfl | ht
      · intro _; exact ⟨rfl, rfl⟩
      · exact h2 t ht
  · intro c cs h0 hd ih
    obtain ⟨h1, h2⟩ := ih
    refine ⟨?_, ?_⟩
    · rw [untilNul_cons c cs h0]
      have hty := charToken_type_ne_Number c
      simp only [List.filter_cons, hd, Bool.not_false, if_true, List.map_cons, bne_iff_ne, ne_eq,
        hty, not_false_eq_true]
      rw [← h1, charToken_eq_specToken]
    · intro t ht
      rcases List.mem_cons.mp ht with rfl | ht
      · rw [charToken_eq_specToken]
        unfold specToken specType specPrecedence opChar
        simp only
        intro hop
        by_cases h4 : c = '^'
        · subst h4; exact absurd rfl hop
        by_cases h5 : c = '*'
        · subst h5; exact absurd rfl hop
        by_cases h6 : c = '/'
        · subst h6; exact absurd rfl hop
        by_cases h7 : c = '+'
        · subst h7; exact absurd rfl hop
        by_cases h8 : c = '-'
        · subst h8; exact absurd rfl hop
        simp [h4, h5, h6, h7, h8]
      · exact h2 t ht

/-- C11 as stated fails on the three-character string `(`, NUL, `)`: the
scan stops at NUL, so NUL and `)` yield no token. -/
theorem tokenizer_classification_counterexample :
    ExprToTokens ['(', Char.ofNat 0, ')'] = [specToken '('] ∧
    isdigit (Char.ofNat 0) = false ∧ isdigit ')' = false ∧
    (ExprToTokens ['(', Char.ofNat 0, ')']).filter (fun t => t.type != .Number) ≠
      (['(', Char.ofNat 0, ')'].filter (fun c => !isdigit c)).map specToken := by
  refine ⟨by decide, by decide, by decide, by decide⟩

/-! ## Maximal digit runs -/

theorem digitRuns_nil : digitRuns [] = [] := by
  simp [digitRuns, List.splitOnP_nil]

theorem digitRuns_nondigit (c : Char) (cs : List Char) (hc : isdigit c = false) :
    digitRuns (c :: cs) = digitRuns cs := by
  simp [digitRuns, List.splitOnP_cons, hc]

theorem digitRuns_digits (d r : List Char) (hd : DigitRun d)
    (hr : ∀ c ∈ r.head?, isdigit c = false) :
    digitRuns (d ++ r) = d :: digitRuns r := by
  have hne : d.isEmpty = false := by
    cases d with
    | nil => exact absurd rfl hd.1
    | cons x xs => rfl
  cases r with
  | nil =>
    rw [List.append_nil, digitRuns_nil]
    unfold digitRuns
    rw [List.splitOnP_eq_single _ d (by intro x hx; simp [hd.2 x hx])]
    simp [hne]
  | cons c cs =>
    have hc : isdigit c = false := hr c (by simp)
    rw [digitRuns_nondigit c cs hc]
    unfold digitRuns
    rw [List.splitOnP_first _ d (by intro x hx; simp [hd.2 x hx]) c (by simp [hc])]
    simp [hne]

/-- The texts of the number tokens are the maximal digit runs of the part of
the string before its first NUL. -/
theorem ExprToTokens_numbers (s : List Char) :
    ((ExprToTokens s).filter (fun t => t.type == .Number)).map Token.str =
      digitRuns (untilNul s) := by
  refine ExprToTokens_induction
    (fun s toks => (toks.filter (fun t => t.type == .Number)).map Token.str =
      digitRuns (untilNul s)) ?_ ?_ ?_ ?_ s
  · simp [untilNul, digitRuns_nil]
  · intro cs
    simp [untilNul_nul, digitRuns_nil]
  · intro d r hd hr ih
    rw [untilNul_digits d r hd.2, digitRuns_digits d _ hd (untilNul_head r hr), ← ih]
    simp [Token.mk2]
  · intro c cs h0 hd ih
    have hty := charToken_type_ne_Number c
    rw [untilNul_cons c cs h0, digitRuns_nondigit c _ hd, ← ih]
    simp [List.filter_cons, hty]

/-- A number token is a maximal digit run of the whole string, and a token
sequence that starts with a number comes from a string that starts with a digit. -/
theorem ExprToTokens_runs (s : List Char) :
    (∀ t ∈ ExprToTokens s, t.type = .Number → DigitRun t.str ∧ t.str ∈ digitRuns s) ∧
    (∀ t ∈ (ExprToTokens s).head?, t.type = .Number → ∃ c ∈ s.head?, isdigit c = true) ∧
    List.Chain' (fun a b => ¬(a.type = .Number ∧ b.type = .Number)) (ExprToTokens s) := by
  refine ExprToTokens_induction
    (fun s toks =>
      (∀ t ∈ toks, t.type = .Number → DigitRun t.str ∧ t.str ∈ digitRuns s) ∧
      (∀ t ∈ toks.head?, t.type = .Number → ∃ c ∈ s.head?, isdigit c = true) ∧
      List.Chain' (fun a b => ¬(a.type = .Number ∧ b.type = .Number)) toks) ?_ ?_ ?_ ?_ s
  · simp
  · intro cs; simp
  · intro d r hd hr ih
    obtain ⟨h1, h2, h3⟩ := ih
    rw [digitRuns_digits d r hd hr]
    refine ⟨?_, ?_, ?_⟩
    · intro t ht hty
      rcases List.mem_cons.mp ht with rfl | ht
      · exact ⟨hd, List.mem_cons_self _ _⟩
      · exact ⟨(h1 t ht hty).1, List.mem_cons_of_mem _ (h1 t ht hty).2⟩
    · intro t _ _
      obtain ⟨hne, hdig⟩ := hd
      cases d with
      | nil => exact absurd rfl hne
      | cons x xs => exact ⟨x, by simp, hdig x (List.mem_cons_self _ _)⟩
    · rw [List.chain'_cons']
      refine ⟨?_, h3⟩
      intro t ht hboth
      obtain ⟨c, hc, hcd⟩ := h2 t ht hboth.2
      rw [hr c hc] at hcd
      exact absurd hcd (by decide)
  · intro c cs _ hd ih
    obtain ⟨h1, h2, h3⟩ := ih
    have hty := charToken_type_ne_Number c
    rw [digitRuns_nondigit c cs hd]
    refine ⟨?_, ?_, ?_⟩
    · intro t ht htn
      rcases List.mem_cons.mp ht with rfl | ht
      · exact absurd htn hty
      · exact h1 t ht htn
    · intro t ht htn
      simp only [List.head?_cons, Option.mem_def, Option.some.injEq] at ht
      subst ht
      exact absurd htn hty
    · rw [List.chain'_cons']
      refine ⟨?_, h3⟩
      intro t _ hboth
      exact hty hboth.1

/-- C12 as amended: in the output of `ExprToTokens` on any string, every
Number token's text is a non-empty string of decimal digits that is a
maximal digit run of the input, and no two Number tokens are adjacent; the
texts of the Number tokens are, in order, the maximal digit runs of the
input before its first NUL, so their number is the number of those runs. -/
theorem number_tokens_are_digit_runs (s : List Char) :
    (∀ t ∈ ExprToTokens s, t.type = .Number → DigitRun t.str ∧ t.str ∈ digitRuns s) ∧
    List.Chain' (fun a b => ¬(a.type = .Number ∧ b.type = .Number)) (ExprToTokens s) ∧
    ((ExprToTokens s).filter (fun t => t.type == .Number)).map Token.str =
      digitRuns (untilNul s) ∧
    countType .Number (ExprToTokens s) = (digitRuns (untilNul s)).length := by
  obtain ⟨h1, _, h3⟩ := ExprToTokens_runs s
  have h4 := ExprToTokens_numbers s
  refine ⟨h1, h3, h4, ?_⟩
  rw [← h4, List.length_map, countType, List.countP_eq_length_filter]
  congr 1

/-- C12 as stated fails on the three-character string `1`, NUL, `2`: it
has two maximal digit runs and one Number token. -/
theorem number_tokens_counterexample :
    digitRuns ['1', Char.ofNat 0, '2'] = [['1'], ['2']] ∧
    ExprToTokens ['1', Char.ofNat 0, '2'] = [Token.mk2 .Number ['1']] ∧
    countType .Number (ExprToTokens ['1', Char.ofNat 0, '2']) ≠
      (digitRuns ['1', Char.ofNat 0, '2']).length := by
  refine ⟨by decide, by decide, by decide⟩

/-! ## Claims on the evaluator -/

theorem evalLoop_append {α : Type} (A : Arith α) (xs ys : List Token) :
    ∀ (st st2 : List α), evalLoop A st xs = .ok st2 →
      evalLoop A st (xs ++ ys) = evalLoop A st2 ys := by
  induction xs with
  | nil => intro st st2 h; cases h; rfl
  | cons x xs ih =>
    intro st st2 h
    simp only [List.cons_append, evalLoop] at h ⊢
    cases hstep : evalStep A st x with
    | error e => rw [hstep] at h; cases h
    | ok st3 => rw [hstep] at h; exact ih st3 st2 h

theorem evalStep_binOp {α : Type} (A : Arith α) (o : BinOp) (lhs rhs : α) (st : List α) :
    evalStep A (rhs :: lhs :: st) (charToken o.char) = .ok (o.apply A lhs rhs :: st) := by
  cases o <;> simp [evalStep, charToken, BinOp.char, BinOp.apply]

theorem evalStep_number {α : Type} (A : Arith α) (d : List Char) (v : α) (st : List α)
    (h : A.stof d = some v) :
    evalStep A st (Token.mk2 .Number d) = .ok (v :: st) := by
  simp [evalStep, Token.mk2, h]

/-- The evaluation loop on the post-order listing of a tree pushes the value
of the tree. -/
theorem evalLoop_tree {α : Type} (A : Arith α) (t : Tree) :
    ∀ (v : α) (st : List α), t.value A = some v →
      evalLoop A st t.postorder = .ok (v :: st) := by
  induction t with
  | num d =>
    intro v st h
    simp only [Tree.value] at h
    simp [Tree.postorder, evalLoop, evalStep_number A d v st h]
  | node o l r ihl ihr =>
    intro v st h
    simp only [Tree.value] at h
    cases hl : l.value A with
    | none => rw [hl] at h; simp at h
    | some lhs =>
      cases hr : r.value A with
      | none => rw [hl, hr] at h; simp at h
      | some rhs =>
        rw [hl, hr] at h
        simp only [Option.some.injEq] at h
        subst h
        simp only [Tree.postorder, List.append_assoc]
        rw [evalLoop_append A _ _ st _ (ihl lhs st hl),
          evalLoop_append A _ _ _ _ (ihr rhs (lhs :: st) hr)]
        simp [evalLoop, evalStep_binOp]

theorem exactStof_digit (c : Char) (n : ℕ) (hc : isdigit c = true) (hn : digitValue c = n) :
    exactArith.stof [c] = some (some (n : ℚ)) := by
  simp [exactArith, exactStof, takeDigits, hc, decimalValue, hn]

/-- C16: for every binary expression tree over literals that `stof` reads,
the evaluation loop on the post-order listing of the tree ends with exactly
one value on the stack: the value of the tree, each node computed as
`lhs OP rhs`; so `a b -` gives `a - b` and `a b /` gives `a / b`. -/
theorem evalLoop_postorder {α : Type} (A : Arith α) (t : Tree) (v : α)
    (hv : t.value A = some v) (a b : List Char) (va vb : α)
    (ha : A.stof a = some va) (hb : A.stof b = some vb) :
    evalLoop A [] t.postorder = .ok [v] ∧
    evalLoop A [] [Token.mk2 .Number a, Token.mk2 .Number b, charToken '-'] =
      .ok [A.sub va vb] ∧
    evalLoop A [] [Token.mk2 .Number a, Token.mk2 .Number b, charToken '/'] =
      .ok [A.div va vb] := by
  refine ⟨evalLoop_tree A t v [] hv, ?_, ?_⟩
  · have h := evalLoop_tree A (.node .sub (.num a) (.num b)) (A.sub va vb) []
      (by simp [Tree.value, ha, hb, BinOp.apply])
    simpa [Tree.postorder, BinOp.char] using h
  · have h := evalLoop_tree A (.node .div (.num a) (.num b)) (A.div va vb) []
      (by simp [Tree.value, ha, hb, BinOp.apply])
    simpa [Tree.postorder, BinOp.char] using h

/-- C16 in exact arithmetic at the tree `(7 - 2) / 4`: the loop ends with the
single value `5/4`, and `7 2 -` gives `5`, not `-5`. -/
theorem evalLoop_postorder_witness :
    ((Tree.node .div (.node .sub (.num ['7']) (.num ['2'])) (.num ['4'])).value exactArith =
        some (some (5 / 4)) ∧
      exactArith.stof ['7'] = some (some 7) ∧ exactArith.stof ['2'] = some (some 2)) ∧
    evalLoop exactArith []
        (Tree.node .div (.node .sub (.num ['7']) (.num ['2'])) (.num ['4'])).postorder =
      .ok [some (5 / 4)] ∧
    evalLoop exactArith [] [Token.mk2 .Number ['7'], Token.mk2 .Number ['2'], charToken '-'] =
      .ok [some 5] := by
  have h7 : exactArith.stof ['7'] = some (some 7) := by
    simpa using exactStof_digit '7' 7 (by decide) (by decide)
  have h2 : exactArith.stof ['2'] = some (some 2) := by
    simpa using exactStof_digit '2' 2 (by decide) (by decide)
  have h4 : exactArith.stof ['4'] = some (some 4) := by
    simpa using exactStof_digit '4' 4 (by decide) (by decide)
  have hv : (Tree.node .div (.node .sub (.num ['7']) (.num ['2'])) (.num ['4'])).value
      exactArith = some (some (5 / 4)) := by
    simp only [Tree.value, h7, h2, h4, BinOp.apply]
    simp [exactArith, exactDiv]
    norm_num
  have h := evalLoop_postorder exactArith _ _ hv ['7'] ['2'] (some 7) (some 2) h7 h2
  refine ⟨⟨hv, h7, h2⟩, h.1, ?_⟩
  rw [h.2.1]
  simp [exactArith]
  norm_num

/-- An Operator token that finds fewer than two values makes the loop read
or pop the empty stack. -/
theorem evalLoop_underflow {α : Type} (A : Arith α) (stack : List α) (token : Token)
    (rest : List Token) (hty : token.type = .Operator) (hlen : stack.length < 2) :
    evalLoop A stack (token :: rest) = .error .undefinedBehaviour := by
  have hstep : evalStep A stack token = .error .undefinedBehaviour := by
    unfold evalStep
    rw [hty]
    match stack, hlen with
    | [], _ => rfl
    | [_], _ => rfl
  simp [evalLoop, hstep]

/-- C13 (the code departs from the claim): on the test inputs `"-1 + 5 - 3"`
and `"-10 + (8 * 2.5) - (    3 / 1,5)"` of `main` the conversion succeeds with
`1 - 5 + 3 -` and `10 - 8 2.5 * + 3 1.5 / -`, which are not valid postfix
sequences: the first Operator token finds one value on the stack, and the
evaluation loop reads the emptied stack. -/
theorem unary_minus_underflow :
    ShuntingYard (ExprToTokens (FormatString "-1 + 5 - 3".toList)) =
      .ok [Token.mk2 .Number ['1'], charToken '-', Token.mk2 .Number ['5'], charToken '+',
        Token.mk2 .Number ['3'], charToken '-'] ∧
    operandsAvailable 0 [Token.mk2 .Number ['1'], charToken '-', Token.mk2 .Number ['5'],
      charToken '+', Token.mk2 .Number ['3'], charToken '-'] = false ∧
    calculator exactArith "-1 + 5 - 3".toList = .error .undefinedBehaviour ∧
    ShuntingYard (ExprToTokens (FormatString "-10 + (8 * 2.5) - (    3 / 1,5)".toList)) =
      .ok [Token.mk2 .Number ['1', '0'], charToken '-', Token.mk2 .Number ['8'],
        Token.mk2 .Number ['2', '.', '5'], charToken '*', charToken '+',
        Token.mk2 .Number ['3'], Token.mk2 .Number ['1', '.', '5'], charToken '/',
        charToken '-'] ∧
    operandsAvailable 0 [Token.mk2 .Number ['1', '0'], charToken '-', Token.mk2 .Number ['8'],
      Token.mk2 .Number ['2', '.', '5'], charToken '*', charToken '+',
      Token.mk2 .Number ['3'], Token.mk2 .Number ['1', '.', '5'], charToken '/',
      charToken '-'] = false ∧
    calculator exactArith "-10 + (8 * 2.5) - (    3 / 1,5)".toList =
      .error .undefinedBehaviour := by
  refine ⟨by decide, by decide, by decide, by decide, by decide, by decide⟩

/-- C14 (the code departs from the claim): on the postfix sequence `1 +`,
which `ShuntingYard` returns for `"1+"`, the Operator case finds one value,
reads `stack.back()` of the emptied stack and pops it; no error is signalled. -/
theorem operator_underflow_unchecked :
    ShuntingYard (ExprToTokens (FormatString "1+".toList)) =
      .ok [Token.mk2 .Number ['1'], charToken '+'] ∧
    evalLoop exactArith [] [Token.mk2 .Number ['1']] = .ok [some 1] ∧
    evalStep exactArith [some 1] (charToken '+') = .error .undefinedBehaviour ∧
    evalLoop exactArith [] [Token.mk2 .Number ['1'], charToken '+'] =
      .error .undefinedBehaviour ∧
    calculator exactArith "1+".toList = .error .undefinedBehaviour := by
  have h1 : exactArith.stof ['1'] = some (some 1) := by
    simpa using exactStof_digit '1' 1 (by decide) (by decide)
  refine ⟨by decide, ?_, by decide, by decide, by decide⟩
  simp [evalLoop, evalStep_number exactArith ['1'] (some 1) [] h1]

theorem calculator_two_literals :
    ShuntingYard (ExprToTokens (FormatString "(1)(2)".toList)) =
      .ok [Token.mk2 .Number ['1'], Token.mk2 .Number ['2']] ∧
    evalLoop exactArith [] [Token.mk2 .Number ['1'], Token.mk2 .Number ['2']] =
      .ok [some 2, some 1] ∧
    calculator exactArith "(1)(2)".toList = .ok (some 2) := by
  have h1 : exactArith.stof ['1'] = some (some 1) := by
    simpa using exactStof_digit '1' 1 (by decide) (by decide)
  have h2 : exactArith.stof ['2'] = some (some 2) := by
    simpa using exactStof_digit '2' 2 (by decide) (by decide)
  have hq : ShuntingYard (ExprToTokens (FormatString "(1)(2)".toList)) =
      .ok [Token.mk2 .Number ['1'], Token.mk2 .Number ['2']] := by decide
  have he : evalLoop exactArith [] [Token.mk2 .Number ['1'], Token.mk2 .Number ['2']] =
      .ok [some 2, some 1] := by
    simp [evalLoop, evalStep_number exactArith ['1'] (some 1) [] h1,
      evalStep_number exactArith ['2'] (some 2) [some 1] h2]
  refine ⟨hq, he, ?_⟩
  unfold calculator
  rw [hq]
  simp only [he, resultOf]

/-- C15 as stated fails at `"(1)(2)"`: `calculator` signals no error and
prints `2` while the value stack holds the two values `1` and `2`. On the
empty expression the stack is empty and `stack.back()` is undefined. -/
theorem result_is_stack_back_counterexample :
    calculator exactArith "(1)(2)".toList = .ok (some 2) ∧
    ShuntingYard (ExprToTokens (FormatString "(1)(2)".toList)) =
      .ok [Token.mk2 .Number ['1'], Token.mk2 .Number ['2']] ∧
    evalLoop exactArith [] [Token.mk2 .Number ['1'], Token.mk2 .Number ['2']] =
      .ok [some 2, some 1] ∧
    [some (2 : ℚ), some 1].length ≠ 1 ∧
    calculator exactArith [] = .error .undefinedBehaviour :=
  ⟨calculator_two_literals.2.2, calculator_two_literals.1, calculator_two_literals.2.1,
    by decide, by decide⟩

/-! ## The tokens of the output queue -/

theorem charToken_operator (c : Char) :
    ((charToken c).type = .Operator → opChar c = true ∧ 2 ≤ (charToken c).precedence) ∧
    ((charToken c).type ≠ .Operator → (charToken c).precedence = -1) := by
  rw [charToken_eq_specToken]
  unfold specToken specType specPrecedence
  simp only
  by_cases hop : opChar c = true
  · have hprec : 2 ≤ (if c = '^' then (4 : Int) else if c = '*' ∨ c = '/' then 3
        else if c = '+' ∨ c = '-' then 2 else -1) := by
      unfold opChar at hop
      simp only [Bool.or_eq_true, beq_iff_eq] at hop
      rcases hop with (((h | h) | h) | h) | h <;> subst h <;> decide
    simp only [hop, if_true]
    exact ⟨fun _ => ⟨trivial, hprec⟩, fun h => absurd rfl h⟩
  · have h4 : c ≠ '^' := by rintro rfl; exact hop (by decide)
    have h5 : c ≠ '*' := by rintro rfl; exact hop (by decide)
    have h6 : c ≠ '/' := by rintro rfl; exact hop (by decide)
    have h7 : c ≠ '+' := by rintro rfl; exact hop (by decide)
    have h8 : c ≠ '-' := by rintro rfl; exact hop (by decide)
    have hop2 : opChar c = false := by simpa using hop
    simp only [hop2, h4, h5, h6, h7, h8, or_self, if_false, Bool.false_eq_true]
    refine ⟨fun h => ?_, fun _ => trivial⟩
    split_ifs at h

theorem ExprToTokens_scanned (s : List Char) : ∀ t ∈ ExprToTokens s, t.Scanned := by
  refine ExprToTokens_induction (fun _ toks => ∀ t ∈ toks, t.Scanned) ?_ ?_ ?_ ?_ s
  · simp
  · intro _; simp
  · intro d r hd _ ih t ht
    rcases List.mem_cons.mp ht with rfl | ht
    · exact ⟨fun _ => hd, fun h => by simp [Token.mk2] at h, fun _ => rfl⟩
    · exact ih t ht
  · intro c cs _ _ ih t ht
    rcases List.mem_cons.mp ht with rfl | ht
    · obtain ⟨h1, h2⟩ := charToken_operator c
      refine ⟨fun h => absurd h (charToken_type_ne_Number c), ?_, h2⟩
      intro h
      rw [charToken_str]
      exact h1 h
    · exact ih t ht

theorem numeralLike_append (s x : List Char) (hs : numeralLike s = true)
    (hx : ∀ c ∈ x, isdigit c = true ∨ c = '.') : numeralLike (s ++ x) = true := by
  cases s with
  | nil => simp [numeralLike] at hs
  | cons c cs =>
    simp only [numeralLike, Bool.and_eq_true, List.all_eq_true, Bool.or_eq_true, beq_iff_eq,
      List.cons_append, List.mem_append] at hs ⊢
    refine ⟨hs.1, ?_⟩
    intro y hy
    rcases hy with hy | hy
    · exact hs.2 y hy
    · exact hx y hy

theorem operatorLike_append (s x : List Char) (hs : operatorLike s = true) :
    operatorLike (s ++ x) = true := by
  cases s with
  | nil => simp [operatorLike] at hs
  | cons c cs => simpa [operatorLike] using hs

theorem numeralLike_digitRun (d : List Char) (hd : DigitRun d) : numeralLike d = true := by
  obtain ⟨hne, hdig⟩ := hd
  cases d with
  | nil => exact absurd rfl hne
  | cons c cs =>
    simp only [numeralLike, Bool.and_eq_true, List.all_eq_true, Bool.or_eq_true, beq_iff_eq]
    exact ⟨hdig c (List.mem_cons_self _ _),
      fun y hy => Or.inl (hdig y (List.mem_cons_of_mem _ hy))⟩

theorem appendToBack_queueOK (q : List Token) (x : List Char)
    (hx : ∀ c ∈ x, isdigit c = true ∨ c = '.') (hq : ∀ t ∈ q, t.QueueOK) :
    ∀ t ∈ appendToBack q x, t.QueueOK := by
  induction q with
  | nil => simp [appendToBack]
  | cons a q ih =>
    cases q with
    | nil =>
      intro t ht
      simp only [appendToBack, List.mem_singleton] at ht
      subst ht
      rcases hq a (List.mem_cons_self _ _) with h | h
      · exact Or.inl ⟨h.1, numeralLike_append _ _ h.2 hx⟩
      · exact Or.inr ⟨h.1, operatorLike_append _ _ h.2⟩
    | cons b q =>
      intro t ht
      simp only [appendToBack, List.mem_cons] at ht
      rcases ht with rfl | ht
      · exact hq t (List.mem_cons_self _ _)
      · exact ih (fun y hy => hq y (List.mem_cons_of_mem _ hy)) t (by
          simpa [appendToBack] using ht)

theorem popOperators_invariant (o1 : Token) (h1 : 2 ≤ o1.precedence) (stack : List Token) :
    ∀ queue : List Token, (∀ t ∈ queue, t.QueueOK) → (∀ t ∈ stack, t.StackOK) →
      (∀ t ∈ (popOperators o1 queue stack).1, t.QueueOK) ∧
      (∀ t ∈ (popOperators o1 queue stack).2, t.StackOK) := by
  induction stack with
  | nil => intro queue hq hs; simpa [popOperators] using hq
  | cons o2 st ih =>
    intro queue hq hs
    unfold popOperators
    by_cases hp : popsBefore o1 o2 = true
    · simp only [hp, if_true]
      have hle := popsBefore_precedence o1 o2 hp
      have h2 : o2.QueueOK := by
        rcases hs o2 (List.mem_cons_self _ _) with h | h
        · exact Or.inr ⟨h.1, h.2.1⟩
        · have := h.2
          omega
      apply ih
      · intro t ht
        rcases List.mem_append.mp ht with ht | ht
        · exact hq t ht
        · simp only [List.mem_singleton] at ht
          subst ht
          exact h2
      · exact fun t ht => hs t (List.mem_cons_of_mem _ ht)
    · simp only [hp]
      exact ⟨hq, hs⟩

/-- A step of the conversion keeps numbers and operators in the queue and
operators and left parentheses on the stack. -/
theorem syStep_invariant (st st2 : SYState) (token : Token) (ht : token.Scanned)
    (hq : ∀ t ∈ st.queue, t.QueueOK) (hs : ∀ t ∈ st.stack, t.StackOK)
    (h : syStep st token = .ok st2) :
    (∀ t ∈ st2.queue, t.QueueOK) ∧ (∀ t ∈ st2.stack, t.StackOK) := by
  obtain ⟨hnum, hop, hother⟩ := ht
  unfold syStep at h
  cases htype : token.type <;> rw [htype] at h <;> simp only at h
  · cases h
  · have hd := hnum htype
    have hpush : ∀ t ∈ st.queue ++ [token], t.QueueOK := by
      intro t hmem
      rcases List.mem_append.mp hmem with hmem | hmem
      · exact hq t hmem
      · simp only [List.mem_singleton] at hmem
        subst hmem
        exact Or.inl ⟨htype, numeralLike_digitRun _ hd⟩
    cases hl : st.queue.getLast? <;> rw [hl] at h <;> simp only at h
    · cases h
      exact ⟨hpush, hs⟩
    · split_ifs at h
      · cases h
        exact ⟨appendToBack_queueOK _ _ (fun c hc => Or.inl (hd.2 c hc)) hq, hs⟩
      · cases h
        exact ⟨hpush, hs⟩
  · cases h
    obtain ⟨h1, h2⟩ := popOperators_invariant token (hop htype).2 st.stack st.queue hq hs
    refine ⟨h1, ?_⟩
    intro t hmem
    rcases List.mem_cons.mp hmem with rfl | hmem
    · exact Or.inl ⟨htype, (hop htype).1, (hop htype).2⟩
    · exact h2 t hmem
  · cases h
    refine ⟨hq, ?_⟩
    intro t hmem
    rcases List.mem_cons.mp hmem with rfl | hmem
    · exact Or.inr ⟨htype, hother (by rw [htype]; decide)⟩
    · exact hs t hmem
  · cases hst : st.stack with
    | nil => rw [hst] at h; cases h
    | cons tos rest =>
      rw [hst] at h hs
      simp only at h
      by_cases htos : tos.type = .LeftParen
      · simp only [htos, ne_eq, not_true_eq_false, if_false] at h
        cases h
        exact ⟨hq, fun t hmem => hs t (List.mem_cons_of_mem _ hmem)⟩
      · simp only [ne_eq, htos, not_false_eq_true, if_true] at h
        cases rest with
        | nil => cases h
        | cons x rest2 =>
          cases h
          refine ⟨?_, fun t hmem =>
            hs t (List.mem_cons_of_mem _ (List.mem_cons_of_mem _ hmem))⟩
          intro t hmem
          rcases List.mem_append.mp hmem with hmem | hmem
          · exact hq t hmem
          · simp only [List.mem_singleton] at hmem
            subst hmem
            rcases hs t (List.mem_cons_self _ _) with h | h
            · exact Or.inr ⟨h.1, h.2.1⟩
            · exact absurd h.1 htos
  · cases hqq : st.queue with
    | nil => rw [hqq] at h; cases h
    | cons a q =>
      rw [hqq] at h
      cases h
      refine ⟨?_, hs⟩
      rw [← hqq]
      exact appendToBack_queueOK _ _ (fun c hc => Or.inr (by simpa using hc)) hq

theorem syLoop_invariant (tokens : List Token) : ∀ (st st2 : SYState),
    (∀ t ∈ tokens, t.Scanned) → (∀ t ∈ st.queue, t.QueueOK) → (∀ t ∈ st.stack, t.StackOK) →
    syLoop st tokens = .ok st2 →
    (∀ t ∈ st2.queue, t.QueueOK) ∧ (∀ t ∈ st2.stack, t.StackOK) := by
  induction tokens with
  | nil =>
    intro st st2 _ hq hs h
    cases h
    exact ⟨hq, hs⟩
  | cons token tokens ih =>
    intro st st2 ht hq hs h
    simp only [syLoop] at h
    cases hstep : syStep st token with
    | error e => rw [hstep] at h; cases h
    | ok st3 =>
      rw [hstep] at h
      obtain ⟨hq3, hs3⟩ := syStep_invariant st st3 token (ht token (List.mem_cons_self _ _))
        hq hs hstep
      exact ih st3 st2 (fun t hmem => ht t (List.mem_cons_of_mem _ hmem)) hq3 hs3 h

theorem drainStack_invariant (stack : List Token) : ∀ (queue out : List Token),
    (∀ t ∈ queue, t.QueueOK) → (∀ t ∈ stack, t.StackOK) →
    drainStack queue stack = .ok out → ∀ t ∈ out, t.QueueOK := by
  induction stack with
  | nil =>
    intro queue out hq _ h
    cases h
    exact hq
  | cons a st ih =>
    intro queue out hq hs h
    unfold drainStack at h
    by_cases ha : a.type = .LeftParen
    · simp [ha] at h
    · simp only [ha, if_false] at h
      apply ih (queue ++ [a]) out _ (fun t hmem => hs t (List.mem_cons_of_mem _ hmem)) h
      intro t hmem
      rcases List.mem_append.mp hmem with hmem | hmem
      · exact hq t hmem
      · simp only [List.mem_singleton] at hmem
        subst hmem
        rcases hs t (List.mem_cons_self _ _) with h2 | h2
        · exact Or.inr ⟨h2.1, h2.2.1⟩
        · exact absurd h2.1 ha

/-- Every token of a queue that `ShuntingYard` returns for the tokens of a
string is a number made of a digit, digits and dots, or an operator whose
text starts with an operator character. -/
theorem ShuntingYard_queueOK (s : List Char) (queue : List Token)
    (h : ShuntingYard (ExprToTokens s) = .ok queue) : ∀ t ∈ queue, t.QueueOK := by
  unfold ShuntingYard syFrom at h
  cases hl : syLoop { queue := [], stack := [], gotOperator := false } (ExprToTokens s) with
  | error e => rw [hl] at h; cases h
  | ok st =>
    rw [hl] at h
    obtain ⟨hq, hs⟩ := syLoop_invariant _ _ st (ExprToTokens_scanned s) (by simp) (by simp) hl
    exact drainStack_invariant st.stack st.queue queue hq hs h

theorem evalStep_queueOK {α : Type} (A : Arith α) (stack : List α) (t : Token) (e : Failure)
    (ht : t.QueueOK) (h : evalStep A stack t = .error e) :
    e = .undefinedBehaviour ∨ e = .stofException t.str := by
  unfold evalStep at h
  rcases ht with ⟨hty, _⟩ | ⟨hty, hop⟩
  · rw [hty] at h
    simp only at h
    cases hs : A.stof t.str <;> rw [hs] at h <;> cases h
    exact Or.inr rfl
  · rw [hty] at h
    simp only at h
    match stack, h with
    | [], h => cases h; exact Or.inl rfl
    | [_], h => cases h; exact Or.inl rfl
    | rhs :: lhs :: rest, h =>
      simp only at h
      cases hstr : t.str with
      | nil => rw [hstr] at hop; simp [operatorLike] at hop
      | cons c cs =>
        rw [hstr] at hop h
        simp only [operatorLike, opChar, Bool.or_eq_true, beq_iff_eq] at hop
        simp only [List.headD_cons] at h
        rcases hop with (((hc | hc) | hc) | hc) | hc <;> subst hc <;> simp at h

theorem evalLoop_queueOK {α : Type} (A : Arith α) (queue : List Token) :
    ∀ (stack : List α) (e : Failure), (∀ t ∈ queue, t.QueueOK) →
      evalLoop A stack queue = .error e →
      e = .undefinedBehaviour ∨ ∃ str, e = .stofException str := by
  induction queue with
  | nil => intro stack e _ h; cases h
  | cons t ts ih =>
    intro stack e hq h
    simp only [evalLoop] at h
    cases hstep : evalStep A stack t with
    | error e2 =>
      rw [hstep] at h
      cases h
      rcases evalStep_queueOK A stack t e (hq t (List.mem_cons_self _ _)) hstep with h2 | h2
      · exact Or.inl h2
      · exact Or.inr ⟨_, h2⟩
    | ok st2 =>
      rw [hstep] at h
      exact ih st2 e (fun x hx => hq x (List.mem_cons_of_mem _ hx)) h

/-- C19: for every input string on which the conversion succeeds, every token
of the returned queue has type Number or Operator, and the text of every
Operator token begins with one of `^ * / + -`; so the evaluation loop, from
any stack, never takes its `Token error` exit or its `Operator error` exit,
and there is no Dot token for its Dot case. -/
theorem queue_has_numbers_and_operators {α : Type} (A : Arith α) (s : List Char)
    (queue : List Token)
    (h : ShuntingYard (ExprToTokens (FormatString s)) = .ok queue) :
    (∀ t ∈ queue, t.type = .Number ∨
      (t.type = .Operator ∧ ∃ c ∈ t.str.head?, opChar c = true)) ∧
    (∀ t ∈ queue, t.type ≠ .LeftParen ∧ t.type ≠ .RightParen ∧ t.type ≠ .Dot ∧
      t.type ≠ .Unknown) ∧
    (∀ stack : List α, evalLoop A stack queue ≠ .error .evalTokenError ∧
      ∀ str, evalLoop A stack queue ≠ .error (.operatorError str)) := by
  have hq := ShuntingYard_queueOK (FormatString s) queue h
  refine ⟨?_, ?_, ?_⟩
  · intro t ht
    rcases hq t ht with h1 | h1
    · exact Or.inl h1.1
    · refine Or.inr ⟨h1.1, ?_⟩
      cases hstr : t.str with
      | nil => rw [hstr] at h1; simp [operatorLike] at h1
      | cons c cs =>
        rw [hstr] at h1
        exact ⟨c, by simp, by simpa [operatorLike] using h1.2⟩
  · intro t ht
    rcases hq t ht with h1 | h1 <;> rw [h1.1] <;> decide
  · intro stack
    constructor
    · intro he
      rcases evalLoop_queueOK A queue stack _ hq he with h1 | ⟨_, h1⟩ <;> cases h1
    · intro str he
      rcases evalLoop_queueOK A queue stack _ hq he with h1 | ⟨_, h1⟩ <;> cases h1

/-- C19 at `"(1.5+2)*3"`. -/
theorem queue_has_numbers_and_operators_witness :
    ShuntingYard (ExprToTokens (FormatString "(1.5+2)*3".toList)) =
      .ok [Token.mk2 .Number ['1', '.', '5'], Token.mk2 .Number ['2'], charToken '+',
        Token.mk2 .Number ['3'], charToken '*'] ∧
    (∀ stack : List (Option ℚ),
      evalLoop exactArith stack [Token.mk2 .Number ['1', '.', '5'], Token.mk2 .Number ['2'],
          charToken '+', Token.mk2 .Number ['3'], charToken '*'] ≠ .error .evalTokenError ∧
      ∀ str, evalLoop exactArith stack [Token.mk2 .Number ['1', '.', '5'],
          Token.mk2 .Number ['2'], charToken '+', Token.mk2 .Number ['3'], charToken '*'] ≠
        .error (.operatorError str)) :=
  ⟨by decide,
    (queue_has_numbers_and_operators exactArith "(1.5+2)*3".toList _ (by decide)).2.2⟩

/-- C18 as amended: for every input string on which the conversion succeeds,
the text of every Number token of the returned queue starts with a digit and
holds only digits and dots. -/
theorem number_texts_are_numeral_like (s : List Char) (queue : List Token)
    (h : ShuntingYard (ExprToTokens (FormatString s)) = .ok queue) :
    ∀ t ∈ queue, t.type = .Number → numeralLike t.str = true := by
  intro t ht hty
  rcases ShuntingYard_queueOK (FormatString s) queue h t ht with h1 | h1
  · exact h1.2
  · rw [hty] at h1
    exact absurd h1.1 (by decide)

/-- C18 as amended, at `"1.2.3"`. -/
theorem number_texts_are_numeral_like_witness :
    ShuntingYard (ExprToTokens (FormatString "1.2.3".toList)) =
      .ok [Token.mk2 .Number "1.2.3".toList] ∧
    ∀ t ∈ [Token.mk2 .Number "1.2.3".toList], t.type = .Number → numeralLike t.str = true :=
  ⟨by decide, number_texts_are_numeral_like "1.2.3".toList _ (by decide)⟩

/-- C18 as stated fails at `"1.2.3"`, `"1..2"` and `"1."`: the conversion
succeeds with the single Number tokens `1.2.3`, `1..2` and `1.`, none of which
is a well-formed decimal numeral. -/
theorem number_texts_counterexample :
    ShuntingYard (ExprToTokens (FormatString "1.2.3".toList)) =
      .ok [Token.mk2 .Number "1.2.3".toList] ∧
    wellFormedNumeral "1.2.3".toList = false ∧
    ShuntingYard (ExprToTokens (FormatString "1..2".toList)) =
      .ok [Token.mk2 .Number "1..2".toList] ∧
    wellFormedNumeral "1..2".toList = false ∧
    ShuntingYard (ExprToTokens (FormatString "1.".toList)) =
      .ok [Token.mk2 .Number "1.".toList] ∧
    wellFormedNumeral "1.".toList = false ∧
    wellFormedNumeral "1.5".toList = true ∧ wellFormedNumeral "15".toList = true := by
  refine ⟨by decide, by decide, by decide, by decide, by decide, by decide, by decide,
    by decide⟩

/-- C17 (the code departs from the claim): on the tokens of `"-1.5"` the
number `1` is pushed on the empty queue without clearing `gotOperator`, so
after the dot the number `5` is pushed as a token of its own: the output is
`1.` `5` `-`, not the single Number `1.5` that `"1.5"` gives, and `calculator`
prints `1 - 5 = -4`. -/
theorem leading_operator_splits_decimal :
    ExprToTokens "-1.5".toList =
      [charToken '-', Token.mk2 .Number ['1'], charToken '.', Token.mk2 .Number ['5']] ∧
    syLoop { queue := [], stack := [], gotOperator := false }
        [charToken '-', Token.mk2 .Number ['1']] =
      .ok { queue := [Token.mk2 .Number ['1']], stack := [charToken '-'],
            gotOperator := true } ∧
    ShuntingYard (ExprToTokens "-1.5".toList) =
      .ok [Token.mk2 .Number ['1', '.'], Token.mk2 .Number ['5'], charToken '-'] ∧
    ShuntingYard (ExprToTokens "1.5".toList) = .ok [Token.mk2 .Number ['1', '.', '5']] ∧
    calculator exactArith "-1.5".toList = .ok (some (-4)) := by
  have hq : ShuntingYard (ExprToTokens (FormatString "-1.5".toList)) =
      .ok [Token.mk2 .Number ['1', '.'], Token.mk2 .Number ['5'], charToken '-'] := by decide
  refine ⟨by decide, by decide, by decide, by decide, ?_⟩
  unfold calculator
  rw [hq]
  simp [evalLoop, evalStep, Token.mk2, charToken, resultOf, exactArith, exactStof, takeDigits,
    isdigit, decimalValue, digitValue]
  norm_num

/-! ## The value stack when the queue is exhausted -/

/-- A step of the evaluation loop that does not end the run changes the
number of values by what the token is: a Number adds one, an Operator takes
two and leaves one. -/
theorem evalStep_length {α : Type} (A : Arith α) (stack stack2 : List α) (t : Token)
    (h : evalStep A stack t = .ok stack2) :
    stack2.length + countType .Operator [t] = stack.length + countType .Number [t] := by
  unfold evalStep at h
  cases hty : t.type <;> rw [hty] at h <;> simp only at h
  · cases h
  · cases hs : A.stof t.str <;> rw [hs] at h <;> cases h
    simp [countType, hty]
  · match stack, h with
    | [], h => cases h
    | [_], h => cases h
    | rhs :: lhs :: rest, h =>
      simp only at h
      split_ifs at h <;> cases h <;> simp [countType, hty]
  · cases h
  · cases h
  · cases h
    simp [countType, hty]

theorem evalLoop_length {α : Type} (A : Arith α) (queue : List Token) :
    ∀ (stack stack2 : List α), evalLoop A stack queue = .ok stack2 →
      stack2.length + countType .Operator queue = stack.length + countType .Number queue := by
  induction queue with
  | nil =>
    intro stack stack2 h
    cases h
    simp [countType]
  | cons t ts ih =>
    intro stack stack2 h
    simp only [evalLoop] at h
    cases hstep : evalStep A stack t with
    | error e => rw [hstep] at h; cases h
    | ok st3 =>
      rw [hstep] at h
      have h1 := evalStep_length A stack st3 t hstep
      have h2 := ih st3 stack2 h
      simp only [countType, List.countP_cons, List.countP_nil] at h1 h2 ⊢
      omega

theorem countType_queueOK (queue : List Token) (hq : ∀ t ∈ queue, t.QueueOK) :
    countType .Number queue + countType .Operator queue = queue.length := by
  induction queue with
  | nil => simp [countType]
  | cons t ts ih =>
    have h := ih (fun x hx => hq x (List.mem_cons_of_mem _ hx))
    simp only [countType, List.countP_cons, List.length_cons] at h ⊢
    rcases hq t (List.mem_cons_self _ _) with h1 | h1 <;> simp [h1.1] <;> omega

/-- C15 as amended: whenever `calculator` prints a result without an error
exit, an exception of `std::stof` or an undefined operation on an empty
container, the postfix queue holds only Number and Operator tokens, the value
stack is not empty when the queue is exhausted, the printed result is its
last element `stack.back()`, and the stack holds as many values as the queue
has Number tokens more than Operator tokens: exactly one value if and only
if the queue has one Number token more than it has Operator tokens. -/
theorem result_is_stack_back {α : Type} (A : Arith α) (s : List Char) (v : α)
    (h : calculator A s = .ok v) :
    ∃ queue rest, ShuntingYard (ExprToTokens (FormatString s)) = .ok queue ∧
      evalLoop A [] queue = .ok (v :: rest) ∧
      countType .Number queue + countType .Operator queue = queue.length ∧
      (v :: rest).length + countType .Operator queue = countType .Number queue ∧
      (rest = [] ↔ countType .Number queue = countType .Operator queue + 1) := by
  unfold calculator at h
  cases hq : ShuntingYard (ExprToTokens (FormatString s)) with
  | error e => rw [hq] at h; cases h
  | ok queue =>
    rw [hq] at h
    simp only at h
    cases he : evalLoop A [] queue with
    | error e => rw [he] at h; cases h
    | ok stack =>
      rw [he] at h
      cases stack with
      | nil => cases h
      | cons x rest =>
        simp only [resultOf, Except.ok.injEq] at h
        subst h
        have hlen := evalLoop_length A queue [] (x :: rest) he
        have hcount := countType_queueOK queue (ShuntingYard_queueOK (FormatString s) queue hq)
        simp only [List.length_nil, Nat.zero_add] at hlen
        refine ⟨queue, rest, rfl, he, hcount, hlen, ?_⟩
        rw [← List.length_eq_zero]
        simp only [List.length_cons] at hlen
        omega

/-- C15 as amended, at `"(1)(2)"`: the queue `1 2` has two Number tokens and
no Operator token, the stack holds `1` and `2`, and the result `2` is its
last element. -/
theorem result_is_stack_back_witness :
    calculator exactArith "(1)(2)".toList = .ok (some 2) ∧
    ∃ queue rest, ShuntingYard (ExprToTokens (FormatString "(1)(2)".toList)) = .ok queue ∧
      evalLoop exactArith [] queue = .ok (some 2 :: rest) ∧
      countType .Number queue + countType .Operator queue = queue.length ∧
      (some (2 : ℚ) :: rest).length + countType .Operator queue = countType .Number queue ∧
      (rest = [] ↔ countType .Number queue = countType .Operator queue + 1) :=
  ⟨calculator_two_literals.2.2,
    result_is_stack_back exactArith "(1)(2)".toList (some 2) calculator_two_literals.2.2⟩

end Calculator
